import Mathlib

/-!
Verification of the `oar-p2p` network-emulation planner.

This file shallowly embeds the planner's data model and algorithms from the
Rust sources (`src/main.rs`, `src/latency_matrix.rs`, `src/machine.rs`) and
proves the frozen claims about them.

Modelling conventions:
* Machine integers (`u32`, `u8`, `usize`) are `Nat` with explicit `% 2 ^ 32`
  where Rust release-mode wrapping matters, and explicit range guards where
  Rust uses `try_from(..).unwrap()`.
* A Rust panic (failed `unwrap`, failed `assert!`, out-of-bounds `Vec` index,
  `todo!()`, `Duration::from_secs_f64` on a negative value) is modelled as
  `none` of an `Option`; recoverable errors are `Except` values.
* `std::time::Duration` is modelled as a `Nat` count of nanoseconds.
  The `f64` values produced by the latency-matrix parser are idealised as
  exact rationals plus the special values `inf`/`nan`; all concrete inputs
  used below are small integers, on which the idealisation agrees exactly
  with IEEE f64 arithmetic.
-/

namespace OarP2p

/-! ### Machine registry (`src/machine.rs`, `define_machines!`) -/

inductive Machine where
  | Alakazam01 | Alakazam02 | Alakazam03 | Alakazam04
  | Alakazam05 | Alakazam06 | Alakazam07 | Alakazam08
  | Bulbasaur1 | Bulbasaur2 | Bulbasaur3
  | Charmander1 | Charmander2 | Charmander3 | Charmander4 | Charmander5
  | Gengar1 | Gengar2 | Gengar3 | Gengar4 | Gengar5
  | Kadabra01 | Kadabra02 | Kadabra03 | Kadabra04
  | Kadabra05 | Kadabra06 | Kadabra07 | Kadabra08
  | Lugia1 | Lugia2 | Lugia3 | Lugia4 | Lugia5
  | Magikarp1
  | Moltres01 | Moltres02 | Moltres03 | Moltres04 | Moltres05
  | Moltres06 | Moltres07 | Moltres08 | Moltres09 | Moltres10
  | Oddish1
  | Psyduck1 | Psyduck2 | Psyduck3
  | Shelder1
  | Squirtle1 | Squirtle2 | Squirtle3 | Squirtle4
  | Staryu1 | Sudowoodo1 | Vulpix1
  | Snorlax01 | Snorlax02 | Snorlax03
deriving DecidableEq, Repr, Fintype

def Machine.index : Machine → Nat
  | .Alakazam01 => 0 | .Alakazam02 => 1 | .Alakazam03 => 2 | .Alakazam04 => 3
  | .Alakazam05 => 4 | .Alakazam06 => 5 | .Alakazam07 => 6 | .Alakazam08 => 7
  | .Bulbasaur1 => 8 | .Bulbasaur2 => 9 | .Bulbasaur3 => 10
  | .Charmander1 => 11 | .Charmander2 => 12 | .Charmander3 => 13
  | .Charmander4 => 14 | .Charmander5 => 15
  | .Gengar1 => 16 | .Gengar2 => 17 | .Gengar3 => 18 | .Gengar4 => 19
  | .Gengar5 => 20
  | .Kadabra01 => 21 | .Kadabra02 => 22 | .Kadabra03 => 23 | .Kadabra04 => 24
  | .Kadabra05 => 25 | .Kadabra06 => 26 | .Kadabra07 => 27 | .Kadabra08 => 28
  | .Lugia1 => 29 | .Lugia2 => 30 | .Lugia3 => 31 | .Lugia4 => 32
  | .Lugia5 => 33
  | .Magikarp1 => 34
  | .Moltres01 => 35 | .Moltres02 => 36 | .Moltres03 => 37 | .Moltres04 => 38
  | .Moltres05 => 39 | .Moltres06 => 40 | .Moltres07 => 41 | .Moltres08 => 42
  | .Moltres09 => 43 | .Moltres10 => 44
  | .Oddish1 => 45
  | .Psyduck1 => 46 | .Psyduck2 => 47 | .Psyduck3 => 48
  | .Shelder1 => 49
  | .Squirtle1 => 50 | .Squirtle2 => 51 | .Squirtle3 => 52 | .Squirtle4 => 53
  | .Staryu1 => 54 | .Sudowoodo1 => 55 | .Vulpix1 => 56
  | .Snorlax01 => 57 | .Snorlax02 => 58 | .Snorlax03 => 59

def Machine.cpus : Machine → Nat
  | .Alakazam01 => 64 | .Alakazam02 => 64 | .Alakazam03 => 64 | .Alakazam04 => 64
  | .Alakazam05 => 64 | .Alakazam06 => 64 | .Alakazam07 => 64 | .Alakazam08 => 64
  | .Bulbasaur1 => 16 | .Bulbasaur2 => 16 | .Bulbasaur3 => 16
  | .Charmander1 => 32 | .Charmander2 => 32 | .Charmander3 => 32
  | .Charmander4 => 32 | .Charmander5 => 32
  | .Gengar1 => 8 | .Gengar2 => 8 | .Gengar3 => 8 | .Gengar4 => 8
  | .Gengar5 => 8
  | .Kadabra01 => 64 | .Kadabra02 => 64 | .Kadabra03 => 64 | .Kadabra04 => 64
  | .Kadabra05 => 64 | .Kadabra06 => 64 | .Kadabra07 => 64 | .Kadabra08 => 64
  | .Lugia1 => 64 | .Lugia2 => 64 | .Lugia3 => 64 | .Lugia4 => 64
  | .Lugia5 => 64
  | .Magikarp1 => 16
  | .Moltres01 => 64 | .Moltres02 => 64 | .Moltres03 => 64 | .Moltres04 => 64
  | .Moltres05 => 64 | .Moltres06 => 64 | .Moltres07 => 64 | .Moltres08 => 64
  | .Moltres09 => 64 | .Moltres10 => 64
  | .Oddish1 => 4
  | .Psyduck1 => 8 | .Psyduck2 => 8 | .Psyduck3 => 8
  | .Shelder1 => 64
  | .Squirtle1 => 24 | .Squirtle2 => 24 | .Squirtle3 => 24 | .Squirtle4 => 24
  | .Staryu1 => 12 | .Sudowoodo1 => 16 | .Vulpix1 => 112
  | .Snorlax01 => 64 | .Snorlax02 => 64 | .Snorlax03 => 64

def Machine.hostname : Machine → String
  | .Alakazam01 => "alakazam-01" | .Alakazam02 => "alakazam-02"
  | .Alakazam03 => "alakazam-03" | .Alakazam04 => "alakazam-04"
  | .Alakazam05 => "alakazam-05" | .Alakazam06 => "alakazam-06"
  | .Alakazam07 => "alakazam-07" | .Alakazam08 => "alakazam-08"
  | .Bulbasaur1 => "bulbasaur-1" | .Bulbasaur2 => "bulbasaur-2"
  | .Bulbasaur3 => "bulbasaur-3"
  | .Charmander1 => "charmander-1" | .Charmander2 => "charmander-2"
  | .Charmander3 => "charmander-3" | .Charmander4 => "charmander-4"
  | .Charmander5 => "charmander-5"
  | .Gengar1 => "gengar-1" | .Gengar2 => "gengar-2" | .Gengar3 => "gengar-3"
  | .Gengar4 => "gengar-4" | .Gengar5 => "gengar-5"
  | .Kadabra01 => "kadabra-01" | .Kadabra02 => "kadabra-02"
  | .Kadabra03 => "kadabra-03" | .Kadabra04 => "kadabra-04"
  | .Kadabra05 => "kadabra-05" | .Kadabra06 => "kadabra-06"
  | .Kadabra07 => "kadabra-07" | .Kadabra08 => "kadabra-08"
  | .Lugia1 => "lugia-1" | .Lugia2 => "lugia-2" | .Lugia3 => "lugia-3"
  | .Lugia4 => "lugia-4" | .Lugia5 => "lugia-5"
  | .Magikarp1 => "magikarp-1"
  | .Moltres01 => "moltres-01" | .Moltres02 => "moltres-02"
  | .Moltres03 => "moltres-03" | .Moltres04 => "moltres-04"
  | .Moltres05 => "moltres-05" | .Moltres06 => "moltres-06"
  | .Moltres07 => "moltres-07" | .Moltres08 => "moltres-08"
  | .Moltres09 => "moltres-09" | .Moltres10 => "moltres-10"
  | .Oddish1 => "oddish-1"
  | .Psyduck1 => "psyduck-1" | .Psyduck2 => "psyduck-2"
  | .Psyduck3 => "psyduck-3"
  | .Shelder1 => "shelder-1"
  | .Squirtle1 => "squirtle-1" | .Squirtle2 => "squirtle-2"
  | .Squirtle3 => "squirtle-3" | .Squirtle4 => "squirtle-4"
  | .Staryu1 => "staryu-1" | .Sudowoodo1 => "sudowoodo-1"
  | .Vulpix1 => "vulpix-1"
  | .Snorlax01 => "snorlax-01" | .Snorlax02 => "snorlax-02"
  | .Snorlax03 => "snorlax-03"

/-- `Machine::interface`.  Five registry rows have `todo!()` as their
interface, which panics when evaluated; those are modelled as `none`. -/
def Machine.interface : Machine → Option String
  | .Magikarp1 => none
  | .Shelder1 => none
  | .Staryu1 => none
  | .Sudowoodo1 => none
  | .Vulpix1 => none
  | _ => some "bond0"

/-- The registry's machine list, in declaration order. -/
def machineList : List Machine :=
  [.Alakazam01, .Alakazam02, .Alakazam03, .Alakazam04,
   .Alakazam05, .Alakazam06, .Alakazam07, .Alakazam08,
   .Bulbasaur1, .Bulbasaur2, .Bulbasaur3,
   .Charmander1, .Charmander2, .Charmander3, .Charmander4, .Charmander5,
   .Gengar1, .Gengar2, .Gengar3, .Gengar4, .Gengar5,
   .Kadabra01, .Kadabra02, .Kadabra03, .Kadabra04,
   .Kadabra05, .Kadabra06, .Kadabra07, .Kadabra08,
   .Lugia1, .Lugia2, .Lugia3, .Lugia4, .Lugia5,
   .Magikarp1,
   .Moltres01, .Moltres02, .Moltres03, .Moltres04, .Moltres05,
   .Moltres06, .Moltres07, .Moltres08, .Moltres09, .Moltres10,
   .Oddish1,
   .Psyduck1, .Psyduck2, .Psyduck3,
   .Shelder1,
   .Squirtle1, .Squirtle2, .Squirtle3, .Squirtle4,
   .Staryu1, .Sudowoodo1, .Vulpix1,
   .Snorlax01, .Snorlax02, .Snorlax03]

/-- `Machine::from_hostname`: the first registry machine whose hostname
matches, if any (hostnames are distinct, so "first" is immaterial). -/
def Machine.from_hostname (s : String) : Option Machine :=
  machineList.find? (fun m => m.hostname = s)

/-! ### Overlay addresses (`src/main.rs`, `machine_address_for_idx`) -/

structure Ipv4Addr where
  a : Nat
  b : Nat
  c : Nat
  d : Nat
deriving DecidableEq, Repr

/-- `machine_address_for_idx`: `Ipv4Addr::new(10, index, idx/254, idx%254+1)`.
The two `try_from(..).unwrap()` calls panic when `idx / 254 > 255` or when
`machine.index() > 255`; both panics are modelled as `none`. -/
def machine_address_for_idx (machine : Machine) (idx : Nat) : Option Ipv4Addr :=
  if idx / 254 ≤ 255 ∧ machine.index ≤ 255 then
    some ⟨10, machine.index, idx / 254, idx % 254 + 1⟩
  else
    none

/-- Sequencing of a fallible map over a list, used to model Rust loops whose
body can panic: the result is `none` as soon as one element panics. -/
def optMap (f : α → Option β) : List α → Option (List β)
  | [] => some []
  | x :: xs =>
    match f x, optMap f xs with
    | some y, some ys => some (y :: ys)
    | _, _ => none

/-- The number of per-machine addresses, `addr_per_cpu * machine.cpus()`.
Both factors are `u32`; release-mode Rust wraps the product. -/
def addrCount (addr_per_cpu : Nat) (machine : Machine) : Nat :=
  addr_per_cpu * machine.cpus % 2 ^ 32

/-- The address list one machine contributes, in local-index order
(the loop `for i in 0..(addr_per_cpu * machine.cpus())`). -/
def machineAddressList (addr_per_cpu : Nat) (machine : Machine) :
    Option (List Ipv4Addr) :=
  optMap (machine_address_for_idx machine) (List.range (addrCount addr_per_cpu machine))

/-- The global address list: machine-major concatenation over the
caller-supplied machine order (first loop of `machine_generate_configs`). -/
def gatherAddresses (machines : List Machine) (addr_per_cpu : Nat) :
    Option (List Ipv4Addr) :=
  (optMap (machineAddressList addr_per_cpu) machines).map List.flatten

/-- The `address_to_index` HashMap: each `insert` overwrites, so after the
gathering loop an address maps to its **last** position in the global list
(equal to its unique position when the list has no duplicates).  `none`
models the panicking `address_to_index[&addr]` lookup of an absent key. -/
def lastIdxOf : List Ipv4Addr → Ipv4Addr → Option Nat
  | [], _ => none
  | x :: xs, a =>
    match lastIdxOf xs a with
    | some i => some (i + 1)
    | none => if x = a then some 0 else none

/-! ### Latency matrix values (`src/latency_matrix.rs`, stored form) -/

/-- `LatencyMatrix`: a dimension plus a flat row-major list of durations.
Durations are nanosecond counts. -/
structure LatencyMatrix where
  dimension : Nat
  latencies : List Nat
deriving DecidableEq, Repr

/-- `LatencyMatrix::latency`: `self.latencies[self.dimension * row + col]`.
The out-of-bounds panic of Rust's `Vec` indexing is modelled as `none`. -/
def LatencyMatrix.latency (m : LatencyMatrix) (row col : Nat) : Option Nat :=
  m.latencies.get? (m.dimension * row + col)

/-- `LatencyMatrix::new` with its `assert_eq!(dimension * dimension,
latencies.len())`; a failing assert is a panic, modelled as `none`. -/
def LatencyMatrix.new (dimension : Nat) (latencies : List Nat) :
    Option LatencyMatrix :=
  if dimension * dimension = latencies.length then
    some ⟨dimension, latencies⟩
  else
    none

/-! ### Latency bucketisation (`machine_generate_configs`, middle loop) -/

/-- One collected ordered pair: source address, destination address and the
pair's latency in whole milliseconds (`latency.as_millis()`, truncating). -/
structure PairEntry where
  src : Ipv4Addr
  dst : Ipv4Addr
  millis : Nat
deriving DecidableEq, Repr

/-- The inner pair-collection loop for one source address `addr`:
`for other_idx in (0..addresses.len()).filter(|i| *i != addr_idx)`.
`none` arises from a missing `address_to_index` entry, an out-of-bounds
latency lookup, or `u32::try_from(latency.as_millis()).unwrap()` overflow. -/
def collectPairsForAddr (matrix : LatencyMatrix) (addresses : List Ipv4Addr)
    (addr : Ipv4Addr) : Option (List PairEntry) :=
  (lastIdxOf addresses addr).bind fun addr_idx =>
    optMap (fun other_idx =>
        (addresses.get? other_idx).bind fun other =>
          (matrix.latency addr_idx other_idx).bind fun latency =>
            if latency / 1000000 < 2 ^ 32 then
              some ⟨addr, other, latency / 1000000⟩
            else
              none)
      ((List.range addresses.length).filter (fun j => j ≠ addr_idx))

/-- All pairs collected for one machine, in loop order
(`for &addr in &machine_addresses`). -/
def collectPairs (matrix : LatencyMatrix) (addresses : List Ipv4Addr)
    (machineAddresses : List Ipv4Addr) : Option (List PairEntry) :=
  (optMap (collectPairsForAddr matrix addresses) machineAddresses).map List.flatten

/-- One step of bucket maintenance: `latencies_buckets.push(millis)` guarded
by the `latencies_set` membership test — append the latency unless already
seen.  (Membership in the companion `HashSet` always coincides with
membership in the bucket vector.) -/
def insertFS (buckets : List Nat) (millis : Nat) : List Nat :=
  if millis ∈ buckets then buckets else buckets ++ [millis]

/-- `latencies_buckets` after the collection loop: the distinct
whole-millisecond latencies in first-seen order. -/
def bucketsOf (pairs : List PairEntry) : List Nat :=
  pairs.foldl (fun acc p => insertFS acc p.millis) []

/-! ### Per-machine configuration (`machine_generate_configs`, tail) -/

/-- One element of the nft `mark_pairs` map: `src . dst : mark`. -/
structure MarkPair where
  src : Ipv4Addr
  dst : Ipv4Addr
  mark : Nat
deriving DecidableEq, Repr

/-- The `mark_pairs` elements in emission order: for each bucket (in
first-seen order, 1-based mark `latency_idx + 1`) the pairs collected for
that bucket's latency, in collection order.  The `assert_ne!(src, dst)` is
modelled as `none` when it fires. -/
def markPairsOf (pairs : List PairEntry) : Option (List MarkPair) :=
  (optMap (fun il =>
      optMap (fun p =>
          if p.src = p.dst then none else some ⟨p.src, p.dst, il.1 + 1⟩)
        (pairs.filter (fun p => p.millis == il.2)))
    (bucketsOf pairs).enum).map List.flatten

/-- A traffic-control batch line.  Each constructor renders to exactly one of
the `format!` strings pushed onto `machine_tc_commands`; the numeric fields
are the format arguments, everything else in those strings is fixed text:
* `qdiscRootHtb i`     = `qdisc add dev i root handle 1: htb default 9999`
* `classHtb i c`       = `class add dev i parent 1: classid 1:c htb rate 10gbit`
* `qdiscNetem i p h d` = `qdisc add dev i parent 1:p handle h: netem delay dms`
* `filterFw i m f`     = `filter add dev i parent 1:0 prio 1 handle m fw flowid 1:f`

The default class line is rendered by `classHtb i 9999`: it is textually the
same command as a bucket class of id 9999. -/
inductive TcCmd where
  | qdiscRootHtb (iface : String)
  | classHtb (iface : String) (classid : Nat)
  | qdiscNetem (iface : String) (parent handle delayMs : Nat)
  | filterFw (iface : String) (mark flowid : Nat)
deriving DecidableEq, Repr

/-- The tc program for one interface: root qdisc, default class, then per
bucket `(idx, latency)` a class `1:(idx+1)`, a netem qdisc with handle
`(idx+2):` and delay `latency` ms, and an fw filter for mark `idx+1`. -/
def tcCommandsFor (iface : String) (buckets : List Nat) : List TcCmd :=
  [.qdiscRootHtb iface, .classHtb iface 9999] ++
    buckets.enum.flatMap (fun il =>
      [.classHtb iface (il.1 + 1),
       .qdiscNetem iface (il.1 + 1) (il.1 + 2) il.2,
       .filterFw iface (il.1 + 1) (il.1 + 1)])

/-- The full tc program: `for iface in &["lo", machine.interface()]`. -/
def tcCommands (iface : String) (buckets : List Nat) : List TcCmd :=
  ["lo", iface].flatMap (fun i => tcCommandsFor i buckets)

/-- `MachineConfig`.  `mark_pairs` keeps the structured elements of the nft
script's `mark_pairs` map (the rest of the nft script is fixed text). -/
structure MachineConfig where
  machine : Machine
  addresses : List Ipv4Addr
  mark_pairs : List MarkPair
  tc_commands : List TcCmd
  ip_commands : List String
deriving DecidableEq, Repr

/-- Renders one IPv4 address, for the `addr add {address}/32` ip lines. -/
def Ipv4Addr.render (x : Ipv4Addr) : String :=
  toString x.a ++ "." ++ toString x.b ++ "." ++ toString x.c ++ "." ++ toString x.d

/-- The body of the second (per-machine) loop of `machine_generate_configs`,
for one machine.  `none` models any panic in the loop body: the `todo!()`
interfaces, address-octet overflow, a latency lookup out of bounds,
`as_millis` overflowing `u32`, or the `assert_ne!(src, dst)`. -/
def machine_generate_config (matrix : LatencyMatrix) (addresses : List Ipv4Addr)
    (addr_per_cpu : Nat) (machine : Machine) : Option MachineConfig :=
  machine.interface.bind fun iface =>
    (machineAddressList addr_per_cpu machine).bind fun machineAddresses =>
    (collectPairs matrix addresses machineAddresses).bind fun pairs =>
    (markPairsOf pairs).bind fun markPairs =>
    some
      { machine := machine
        addresses := machineAddresses
        mark_pairs := markPairs
        tc_commands := tcCommands iface (bucketsOf pairs)
        ip_commands :=
          ("route add 10.0.0.0/8 dev " ++ iface) ::
            machineAddresses.map
              (fun a => "addr add " ++ a.render ++ "/32 dev " ++ iface) }

/-- `machine_generate_configs`: gather the global address list, then build
each machine's configuration. -/
def machine_generate_configs (matrix : LatencyMatrix) (machines : List Machine)
    (addr_per_cpu : Nat) : Option (List MachineConfig) :=
  (gatherAddresses machines addr_per_cpu).bind fun addresses =>
    optMap (machine_generate_config matrix addresses addr_per_cpu) machines

/-- Reference form of first-seen deduplication, used to state that the
bucket list keeps the first occurrence of each distinct latency. -/
def firstSeen : List Nat → List Nat
  | [] => []
  | x :: xs => x :: firstSeen (xs.filter (fun y => y ≠ x))
  termination_by l => l.length
  decreasing_by
    calc (xs.filter (fun y => y ≠ x)).length ≤ xs.length := List.length_filter_le _ _
    _ < (x :: xs).length := by simp

/-- The address value `machine_address_for_idx` produces when it does not
panic: `10 . index . idx/254 . idx%254+1`. -/
def addrFormula (machine : Machine) (idx : Nat) : Ipv4Addr :=
  ⟨10, machine.index, idx / 254, idx % 254 + 1⟩

/-- The pair entry collected for source address `a` and peer index `j`
(assuming no panic): peer address `addresses[j]`, latency truncated to
whole milliseconds. -/
def pairFor (matrix : LatencyMatrix) (addrs : List Ipv4Addr) (a : Ipv4Addr)
    (j : Nat) : PairEntry :=
  ⟨a, addrs.getD j ⟨0, 0, 0, 0⟩, (matrix.latency (addrs.indexOf a) j).getD 0 / 1000000⟩

/-- The list of pair entries collected for one source address. -/
def pairRow (matrix : LatencyMatrix) (addrs : List Ipv4Addr) (a : Ipv4Addr) :
    List PairEntry :=
  ((List.range addrs.length).filter (fun j => j ≠ addrs.indexOf a)).map
    (pairFor matrix addrs a)

/-- The device a tc command operates on (`dev <iface>`). -/
def TcCmd.dev : TcCmd → String
  | .qdiscRootHtb i => i
  | .classHtb i _ => i
  | .qdiscNetem i _ _ _ => i
  | .filterFw i _ _ => i

/-- Recognises a netem qdisc attached under class `1:k` on device `i`,
whatever its handle and delay. -/
def isNetemParent (i : String) (k : Nat) : TcCmd → Bool
  | .qdiscNetem i' p _ _ => decide (i' = i) && decide (p = k)
  | _ => false

/-- Concrete input: a 4×4 millisecond matrix (stored in nanoseconds) for the
four addresses of `Oddish1` with one address per cpu. -/
def mW1 : LatencyMatrix :=
  ⟨4, [0, 1, 2, 3, 1, 0, 4, 5, 2, 4, 0, 6, 3, 5, 6, 0].map
    (fun v => v * 1000000)⟩

def addrsW1 : List Ipv4Addr :=
  [⟨10, 45, 0, 1⟩, ⟨10, 45, 0, 2⟩, ⟨10, 45, 0, 3⟩, ⟨10, 45, 0, 4⟩]

/-- The configuration generated for `Oddish1` on the concrete input. -/
def cfgW1 : MachineConfig :=
  ((machine_generate_configs mW1 [Machine.Oddish1] 1).getD []).headD
    ⟨Machine.Oddish1, [], [], [], []⟩

/-- An `N`-dimension matrix whose entries are pairwise distinct whole
milliseconds: entry `(r, c)` is `N·r + c` ms (stored in nanoseconds).
`rangeMatrix 112` is the concrete counterexample input. -/
def rangeMatrix (N : Nat) : LatencyMatrix :=
  ⟨N, (List.range (N * N)).map (fun i => i * 1000000)⟩

/-! ### Latency-matrix parser (`src/latency_matrix.rs`, `parse`)

Character-level model of the text pipeline.  `f64` values are idealised as
exact rationals plus `inf`/`nan` specials; on the integer tokens used in the
claims this agrees exactly with IEEE semantics. -/

inductive TimeUnit where
  | Seconds
  | Milliseconds

/-- `InvalidLatencyMatrix` (the parser's error enum). -/
inductive InvalidLatencyMatrix where
  | InvalidLineDimension (line dimension expected : Nat)
  | InvalidLatencyValue (value : String) (error : String)
deriving DecidableEq, Repr

/-- The value of a parsed `f64` token, idealised as the exact rational
`num / 10 ^ pow10` (the representation is not normalised; only the final
nanosecond counts matter). -/
inductive FloatVal where
  | finite (num : Int) (pow10 : Nat)
  | inf
  | neginf
  | nan
deriving DecidableEq, Repr

def isWsChar (c : Char) : Bool :=
  c = ' ' || c = '\t' || c = '\r' || c = '\n'

def digitsToNat (l : List Char) : Nat :=
  l.foldl (fun n c => n * 10 + (c.toNat - 48)) 0

/-- Exponent suffix: `e`/`E` already consumed; optional sign, then at least
one digit.  Returns the signed exponent. -/
def parseExponent (l : List Char) : Option Int :=
  let core : List Char → Option Int := fun ds =>
    if ds = [] ∨ ¬ ds.all Char.isDigit then none
    else some (Int.ofNat (digitsToNat ds))
  match l with
  | '+' :: rest => core rest
  | '-' :: rest => (core rest).map (fun n => -n)
  | rest => core rest

/-- Applies a decimal exponent to a `num / 10 ^ pow10` value. -/
def applyExp (num : Nat) (pow10 : Nat) (e : Int) : Nat × Nat :=
  if 0 ≤ e then (num * 10 ^ e.toNat, pow10) else (num, pow10 + (-e).toNat)

/-- The numeric part of the `f64` grammar (after the sign):
`digits ['.' digits?] [exp]` or `'.' digits [exp]`.  Returns the magnitude
as `(num, pow10)` with value `num / 10 ^ pow10`. -/
def parseNumber (l : List Char) : Option (Nat × Nat) :=
  let intPart := l.takeWhile Char.isDigit
  let rest := l.dropWhile Char.isDigit
  let withExp : Nat → Nat → List Char → Option (Nat × Nat) := fun n p e =>
    match e with
    | [] => some (n, p)
    | c :: rest2 =>
      if c = 'e' ∨ c = 'E' then
        (parseExponent rest2).map (applyExp n p)
      else
        none
  match rest with
  | '.' :: rest2 =>
    let fracPart := rest2.takeWhile Char.isDigit
    let rest3 := rest2.dropWhile Char.isDigit
    if intPart = [] ∧ fracPart = [] then
      none
    else
      withExp (digitsToNat (intPart ++ fracPart)) fracPart.length rest3
  | _ =>
    if intPart = [] then
      none
    else
      withExp (digitsToNat intPart) 0 rest

/-- Model of `str::parse::<f64>()` on one token. -/
def parseF64 (l : List Char) : Option FloatVal :=
  let core : Bool → List Char → Option FloatVal := fun neg cs =>
    let lower := cs.map Char.toLower
    if lower = "inf".data ∨ lower = "infinity".data then
      some (if neg then .neginf else .inf)
    else if lower = "nan".data then
      some .nan
    else
      (parseNumber cs).map (fun np =>
        .finite (if neg then -(np.1 : Int) else (np.1 : Int)) np.2)
  match l with
  | '+' :: rest => core false rest
  | '-' :: rest => core true rest
  | rest => core false rest

/-- `Duration::from_secs_f64`, in nanoseconds: panics (`none`) on negative,
non-finite or `Duration`-overflowing values; otherwise rounds
`num / 10 ^ pow10` seconds to the nearest nanosecond. -/
def from_secs_f64 (x : FloatVal) : Option Nat :=
  match x with
  | .finite num pow10 =>
    if num < 0 then
      none
    else
      let n := num.toNat
      if 2 ^ 64 * 10 ^ pow10 ≤ n then
        none
      else
        some ((2 * n * 1000000000 + 10 ^ pow10) / (2 * 10 ^ pow10))
  | _ => none

/-- The unit rescaling applied to each token value:
`component_value / 1000.0` for milliseconds (exact in this model). -/
def scaleUnitF (unit : TimeUnit) (v : FloatVal) : FloatVal :=
  match v with
  | .finite num pow10 =>
    .finite num (match unit with | .Seconds => pow10 | .Milliseconds => pow10 + 3)
  | x => x

/-- `str::lines`: split on `'\n'`, dropping one trailing empty piece and a
trailing `'\r'` on each line. -/
def splitOnNl : List Char → List (List Char)
  | [] => [[]]
  | c :: rest =>
    if c = '\n' then
      [] :: splitOnNl rest
    else
      match splitOnNl rest with
      | l :: ls => (c :: l) :: ls
      | [] => [[c]]

def stripCr (l : List Char) : List Char :=
  match l.getLast? with
  | some '\r' => l.dropLast
  | _ => l

def linesOf (s : List Char) : List (List Char) :=
  let parts := splitOnNl s
  let parts := if parts.getLast? = some [] then parts.dropLast else parts
  parts.map stripCr

/-- `str::trim`. -/
def trimChars (l : List Char) : List Char :=
  ((l.dropWhile isWsChar).reverse.dropWhile isWsChar).reverse

/-- `str::split_whitespace`. -/
def splitWsGo : List Char → List Char → List (List Char)
  | [], cur => if cur = [] then [] else [cur.reverse]
  | c :: rest, cur =>
    if isWsChar c then
      if cur = [] then splitWsGo rest [] else cur.reverse :: splitWsGo rest []
    else
      splitWsGo rest (c :: cur)

def splitWs (l : List Char) : List (List Char) :=
  splitWsGo l []

/-- The inner token loop of `LatencyMatrix::parse` for one row: the first
unparsable token yields `InvalidLatencyValue`; a parsable token is rescaled
and converted with `Duration::from_secs_f64`, whose panic propagates as
`none`. -/
def parseRow (unit : TimeUnit) : List (List Char) →
    Option (Except InvalidLatencyMatrix (List Nat))
  | [] => some (.ok [])
  | t :: ts =>
    match parseF64 t with
    | none => some (.error (.InvalidLatencyValue (String.mk t)
        "invalid float literal"))
    | some v =>
      match from_secs_f64 (scaleUnitF unit v) with
      | none => none
      | some ns =>
        match parseRow unit ts with
        | none => none
        | some (.error e) => some (.error e)
        | some (.ok l) => some (.ok (ns :: l))

/-- The line loop of `LatencyMatrix::parse`: skip blank lines, parse each
row, enforce the first row's width, and finally call `LatencyMatrix::new`
(whose `assert_eq!` panic propagates as `none`). -/
def parseLines (unit : TimeUnit) :
    List (Nat × List Char) → Option Nat → List Nat →
    Option (Except InvalidLatencyMatrix LatencyMatrix)
  | [], dim, lats => (LatencyMatrix.new (dim.getD 0) lats).map .ok
  | (idx, line) :: rest, dim, lats =>
    let l := trimChars line
    if l = [] then
      parseLines unit rest dim lats
    else
      let toks := splitWs l
      match parseRow unit toks with
      | none => none
      | some (.error e) => some (.error e)
      | some (.ok ds) =>
        match dim with
        | some d =>
          if toks.length ≠ d then
            some (.error (.InvalidLineDimension idx toks.length d))
          else
            parseLines unit rest (some d) (lats ++ ds)
        | none => parseLines unit rest (some toks.length) (lats ++ ds)

/-- `LatencyMatrix::parse`. -/
def LatencyMatrix.parse (content : String) (unit : TimeUnit) :
    Option (Except InvalidLatencyMatrix LatencyMatrix) :=
  parseLines unit (linesOf content.data).enum none []

instance : DecidableEq (Except InvalidLatencyMatrix LatencyMatrix) := fun a b =>
  match a, b with
  | .error x, .error y =>
    if h : x = y then isTrue (by rw [h]) else isFalse (by intro hc; cases hc; exact h rfl)
  | .ok x, .ok y =>
    if h : x = y then isTrue (by rw [h]) else isFalse (by intro hc; cases hc; exact h rfl)
  | .error _, .ok _ => isFalse (by intro hc; cases hc)
  | .ok _, .error _ => isFalse (by intro hc; cases hc)

/-! ## Concurrent fan-out over machines (`machine::for_each_with_limit`) -/

/-- The result-collection loop of `for_each_with_limit`, modelled over the
sequence of task completion events.  Each event pairs the machine with its
task's outcome; `Ok` results are pushed onto the result vector, and the
first `Err` short-circuits, wrapped with the context line
`running task on machine <hostname>`. -/
def for_each_collect {σ : Type} :
    List (Machine × Except String σ) → Except String (List (Machine × σ))
  | [] => .ok []
  | (m, .error e) :: _ =>
    .error ("running task on machine " ++ m.hostname ++ ": " ++ e)
  | (m, .ok v) :: rest => (for_each_collect rest).map (fun l => (m, v) :: l)

/-! ## Execution-node detection (`get_execution_node` / `get_hostname`) -/

inductive ExecutionNode where
  | Frontend
  | Machine (m : Machine)
  | Unknown
deriving DecidableEq, Repr

/-- `get_hostname` in `main.rs`, with the outcome of reading
`/etc/hostname` and of the `HOSTNAME` environment variable passed in
explicitly.  A readable file wins; otherwise the variable; if both are
absent the function returns the `HOSTNAME` read error. -/
def get_hostname (file env : Option String) : Except String String :=
  match file with
  | some h => .ok h
  | none =>
    match env with
    | some h => .ok h
    | none => .error "reading HOSTNAME env var"

/-- The hostname-to-node mapping inside `get_execution_node`. -/
def nodeOfHostname (h : String) : ExecutionNode :=
  if h = "frontend" then
    .Frontend
  else
    match Machine.from_hostname h with
    | some m => .Machine m
    | none => .Unknown

/-- `get_execution_node` in `main.rs`. -/
def get_execution_node (file env : Option String) :
    Except String ExecutionNode :=
  (get_hostname file env).map nodeOfHostname

theorem firstSeen_nil : firstSeen [] = [] := by rw [firstSeen]

theorem firstSeen_cons (x : Nat) (xs : List Nat) :
    firstSeen (x :: xs) = x :: firstSeen (xs.filter (fun y => y ≠ x)) := by
  rw [firstSeen]

/-! ### Toolkit lemmas -/

theorem optMap_eq_some_of_forall {f : α → Option β} {g : α → β} :
    ∀ {l : List α}, (∀ x ∈ l, f x = some (g x)) → optMap f l = some (l.map g)
  | [], _ => rfl
  | x :: xs, h => by
    have hx := h x (by simp)
    have hxs := optMap_eq_some_of_forall (l := xs) (fun y hy => h y (by simp [hy]))
    simp [optMap, hx, hxs]

theorem optMap_some_ext {f : α → Option β} {g : α → β} :
    ∀ {l : List α} {ys : List β}, optMap f l = some ys →
      (∀ x ∈ l, ∀ y, f x = some y → y = g x) → ys = l.map g
  | [], ys, h, _ => by simpa [optMap] using h.symm
  | x :: xs, ys, h, hval => by
    simp only [optMap] at h
    cases hfx : f x with
    | none => rw [hfx] at h; exact absurd h (by simp)
    | some y =>
      rw [hfx] at h
      cases hmx : optMap f xs with
      | none => rw [hmx] at h; exact absurd h (by simp)
      | some ys' =>
        rw [hmx] at h
        simp only [Option.some_inj] at h
        subst h
        have h1 : y = g x := hval x (by simp) y hfx
        have h2 : ys' = xs.map g :=
          optMap_some_ext hmx (fun z hz => hval z (by simp [hz]))
        simp [h1, h2]

theorem optMap_some_elem {f : α → Option β} :
    ∀ {l : List α} {ys : List β}, optMap f l = some ys →
      ∀ x ∈ l, ∃ y, f x = some y
  | [], _, _, x, hx => absurd hx (by simp)
  | a :: as, ys, h, x, hx => by
    simp only [optMap] at h
    cases hfa : f a with
    | none => rw [hfa] at h; exact absurd h (by simp)
    | some y =>
      rw [hfa] at h
      cases hma : optMap f as with
      | none => rw [hma] at h; exact absurd h (by simp)
      | some ys' =>
        rcases List.mem_cons.mp hx with hx | hx
        · exact ⟨y, hx ▸ hfa⟩
        · exact optMap_some_elem hma x hx

theorem lastIdxOf_eq_indexOf {l : List Ipv4Addr} (hnd : l.Nodup) {a : Ipv4Addr}
    (ha : a ∈ l) : lastIdxOf l a = some (l.indexOf a) := by
  induction l with
  | nil => cases ha
  | cons x xs ih =>
    rcases List.mem_cons.mp ha with rfl | ha'
    · have hnx : a ∉ xs := (List.nodup_cons.mp hnd).1
      have h0 : lastIdxOf xs a = none := by
        clear ih hnd ha
        induction xs with
        | nil => rfl
        | cons z zs ihz =>
          have hz : z ≠ a := fun h => hnx (by simp [h])
          have : a ∉ zs := fun h => hnx (by simp [h])
          simp [lastIdxOf, ihz this, hz]
      simp [lastIdxOf, h0, List.indexOf_cons_self]
    · have hxa : x ≠ a := fun h => (List.nodup_cons.mp hnd).1 (h ▸ ha')
      have := ih (List.nodup_cons.mp hnd).2 ha'
      simp [lastIdxOf, this, List.indexOf_cons_ne _ (by simpa using hxa)]

theorem countP_flatMap (p : β → Bool) (f : α → List β) :
    ∀ l : List α, (l.flatMap f).countP p = (l.map (fun x => (f x).countP p)).sum
  | [] => rfl
  | x :: xs => by
    simp [List.flatMap_cons, List.countP_append, countP_flatMap p f xs]

theorem sum_map_indicator (m : Nat) :
    ∀ l : List Nat, (l.map (fun x => if x = m then 1 else 0)).sum = l.count m
  | [] => rfl
  | x :: xs => by
    by_cases h : x = m <;>
      simp [sum_map_indicator m xs, List.count_cons, h, Nat.add_comm, eq_comm (a := x)]

theorem foldl_insertFS_eq_append_firstSeen :
    ∀ (l : List Nat) (acc : List Nat),
      l.foldl insertFS acc = acc ++ firstSeen (l.filter (fun x => decide (x ∉ acc)))
  | [], acc => by simp [firstSeen_nil]
  | x :: xs, acc => by
    rw [List.foldl_cons]
    by_cases hx : x ∈ acc
    · have h1 : insertFS acc x = acc := by simp [insertFS, hx]
      rw [h1, foldl_insertFS_eq_append_firstSeen xs acc]
      simp [List.filter_cons, hx]
    · have h1 : insertFS acc x = acc ++ [x] := by simp [insertFS, hx]
      rw [h1, foldl_insertFS_eq_append_firstSeen xs (acc ++ [x])]
      have hfil : xs.filter (fun y => decide (y ∉ acc ++ [x]))
          = (xs.filter (fun y => decide (y ∉ acc))).filter (fun y => y ≠ x) := by
        rw [List.filter_filter]
        apply List.filter_congr
        intro y _
        by_cases h1 : y = x <;> by_cases h2 : y ∈ acc <;> simp [h1, h2, hx]
      have hcons : (x :: xs).filter (fun y => decide (y ∉ acc))
          = x :: xs.filter (fun y => decide (y ∉ acc)) := by
        simp [List.filter_cons, hx]
      rw [hfil, hcons, firstSeen_cons, List.append_assoc, List.singleton_append]

theorem bucketsOf_eq_firstSeen (pairs : List PairEntry) :
    bucketsOf pairs = firstSeen (pairs.map PairEntry.millis) := by
  have hfold : pairs.foldl (fun acc p => insertFS acc p.millis) []
      = (pairs.map PairEntry.millis).foldl insertFS [] := by
    rw [List.foldl_map]
  have h := foldl_insertFS_eq_append_firstSeen (pairs.map PairEntry.millis) []
  simp only [bucketsOf, hfold, h, List.nil_append]
  congr 1
  apply (List.filter_eq_self).mpr
  intro a _
  simp

theorem firstSeen_subset : ∀ l : List Nat, firstSeen l ⊆ l := by
  intro l
  induction l using firstSeen.induct with
  | case1 => rw [firstSeen_nil]; exact fun a h => h
  | case2 x xs ih =>
    rw [firstSeen_cons]
    intro a ha
    rcases List.mem_cons.mp ha with rfl | ha'
    · simp
    · exact List.mem_cons_of_mem _ (List.mem_of_mem_filter (ih ha'))

theorem firstSeen_nodup : ∀ l : List Nat, (firstSeen l).Nodup := by
  intro l
  induction l using firstSeen.induct with
  | case1 => rw [firstSeen_nil]; exact List.nodup_nil
  | case2 x xs ih =>
    rw [firstSeen_cons]
    refine List.nodup_cons.mpr ⟨fun hmem => ?_, ih⟩
    have := List.of_mem_filter (firstSeen_subset _ hmem)
    simp at this

theorem firstSeen_mem_iff : ∀ (l : List Nat) (a : Nat), a ∈ firstSeen l ↔ a ∈ l := by
  intro l
  induction l using firstSeen.induct with
  | case1 => simp [firstSeen_nil]
  | case2 x xs ih =>
    intro a
    rw [firstSeen_cons]
    by_cases hax : a = x
    · simp [hax]
    · simp only [List.mem_cons, hax, false_or]
      rw [ih a]
      simp [List.mem_filter, hax]

theorem bucketsOf_nodup (pairs : List PairEntry) : (bucketsOf pairs).Nodup := by
  rw [bucketsOf_eq_firstSeen]; exact firstSeen_nodup _

theorem mem_bucketsOf {pairs : List PairEntry} {p : PairEntry} (hp : p ∈ pairs) :
    p.millis ∈ bucketsOf pairs := by
  rw [bucketsOf_eq_firstSeen, firstSeen_mem_iff]
  exact List.mem_map_of_mem _ hp

/-- Every machine index in the registry fits in one octet. -/
theorem machine_index_le_255 : ∀ m : Machine, m.index ≤ 255 := by decide

set_option maxRecDepth 8192 in
/-- Machine indices are injective: they determine the machine. -/
theorem machine_index_inj : ∀ a b : Machine, a.index = b.index → a = b := by decide

theorem machine_address_for_idx_some {m : Machine} {i : Nat} {a : Ipv4Addr}
    (h : machine_address_for_idx m i = some a) : a = addrFormula m i := by
  unfold machine_address_for_idx at h
  split at h
  · exact (Option.some_inj.mp h).symm
  · cases h

theorem machine_address_for_idx_eq_some {m : Machine} {i : Nat}
    (h : i < 65024) : machine_address_for_idx m i = some (addrFormula m i) := by
  have h1 : i / 254 ≤ 255 := by omega
  simp [machine_address_for_idx, addrFormula, h1, machine_index_le_255 m]

theorem addrFormula_inj {m m' : Machine} {i i' : Nat}
    (h : addrFormula m i = addrFormula m' i') : m = m' ∧ i = i' := by
  have h1 : m.index = m'.index := congrArg Ipv4Addr.b h
  have h2 : i / 254 = i' / 254 := congrArg Ipv4Addr.c h
  have h3 : i % 254 + 1 = i' % 254 + 1 := congrArg Ipv4Addr.d h
  refine ⟨machine_index_inj _ _ h1, ?_⟩
  omega

theorem machineAddressList_some_eq {n : Nat} {m : Machine} {l : List Ipv4Addr}
    (h : machineAddressList n m = some l) :
    l = (List.range (addrCount n m)).map (addrFormula m) :=
  optMap_some_ext h (fun _ _ _ hy => machine_address_for_idx_some hy)

theorem machineAddressList_eq_some {n : Nat} {m : Machine}
    (h : addrCount n m ≤ 65024) :
    machineAddressList n m = some ((List.range (addrCount n m)).map (addrFormula m)) :=
  optMap_eq_some_of_forall (fun i hi =>
    machine_address_for_idx_eq_some (by have := List.mem_range.mp hi; omega))

theorem machineAddressList_some_nodup {n : Nat} {m : Machine} {l : List Ipv4Addr}
    (h : machineAddressList n m = some l) : l.Nodup := by
  rw [machineAddressList_some_eq h]
  exact (List.nodup_range _).map_on
    (fun i _ j _ hij => (addrFormula_inj hij).2)

theorem gatherAddresses_some_eq {machines : List Machine} {n : Nat}
    {addrs : List Ipv4Addr} (h : gatherAddresses machines n = some addrs) :
    addrs = (machines.map
      (fun m => (List.range (addrCount n m)).map (addrFormula m))).flatten := by
  unfold gatherAddresses at h
  cases hm : optMap (machineAddressList n) machines with
  | none => rw [hm] at h; cases h
  | some ls =>
    rw [hm] at h
    have hls : ls = machines.map
        (fun m => (List.range (addrCount n m)).map (addrFormula m)) :=
      optMap_some_ext hm (fun _ _ y hy => machineAddressList_some_eq hy)
    simpa [hls] using h.symm

theorem gatherAddresses_eq_some {machines : List Machine} {n : Nat}
    (h : ∀ m ∈ machines, addrCount n m ≤ 65024) :
    gatherAddresses machines n = some ((machines.map
      (fun m => (List.range (addrCount n m)).map (addrFormula m))).flatten) := by
  unfold gatherAddresses
  rw [optMap_eq_some_of_forall (g := fun m => (List.range (addrCount n m)).map (addrFormula m))
    (fun m hm => machineAddressList_eq_some (h m hm))]
  rfl

theorem gatherAddresses_some_nodup {machines : List Machine} {n : Nat}
    {addrs : List Ipv4Addr} (hnd : machines.Nodup)
    (h : gatherAddresses machines n = some addrs) : addrs.Nodup := by
  rw [gatherAddresses_some_eq h]
  rw [List.nodup_flatten]
  constructor
  · intro l hl
    rcases List.mem_map.mp hl with ⟨m, _, rfl⟩
    exact (List.nodup_range _).map_on (fun i _ j _ hij => (addrFormula_inj hij).2)
  · rw [List.pairwise_map]
    refine hnd.imp_of_mem ?_
    intro m m' hm hm' hne a ha ha'
    rcases List.mem_map.mp ha with ⟨i, _, rfl⟩
    rcases List.mem_map.mp ha' with ⟨j, _, hij⟩
    exact hne (addrFormula_inj hij.symm).1

theorem gatherAddresses_some_length {machines : List Machine} {n : Nat}
    {addrs : List Ipv4Addr} (h : gatherAddresses machines n = some addrs) :
    addrs.length = (machines.map (fun m => addrCount n m)).sum := by
  rw [gatherAddresses_some_eq h, List.length_flatten, List.map_map]
  congr 1
  ext m
  simp

theorem mem_gatherAddresses {machines : List Machine} {n : Nat}
    {addrs : List Ipv4Addr} (h : gatherAddresses machines n = some addrs)
    {m : Machine} (hm : m ∈ machines) {l : List Ipv4Addr}
    (hl : machineAddressList n m = some l) : ∀ a ∈ l, a ∈ addrs := by
  intro a ha
  rw [gatherAddresses_some_eq h]
  rw [machineAddressList_some_eq hl] at ha
  exact List.mem_flatten.mpr ⟨_, List.mem_map_of_mem _ hm, ha⟩

theorem optMap_some_mem {f : α → Option β} :
    ∀ {l : List α} {ys : List β}, optMap f l = some ys →
      ∀ y ∈ ys, ∃ x ∈ l, f x = some y
  | [], ys, h, y, hy => by
    simp only [optMap, Option.some_inj] at h
    subst h
    cases hy
  | a :: as, ys, h, y, hy => by
    simp only [optMap] at h
    cases hfa : f a with
    | none => rw [hfa] at h; cases h
    | some b =>
      rw [hfa] at h
      cases hma : optMap f as with
      | none => rw [hma] at h; cases h
      | some ys' =>
        rw [hma] at h
        simp only [Option.some_inj] at h
        subst h
        rcases List.mem_cons.mp hy with rfl | hy'
        · exact ⟨a, by simp, hfa⟩
        · rcases optMap_some_mem hma y hy' with ⟨x, hx, hfx⟩
          exact ⟨x, by simp [hx], hfx⟩

theorem collectPairsForAddr_some_eq {matrix : LatencyMatrix}
    {addrs : List Ipv4Addr} {a : Ipv4Addr} {l : List PairEntry}
    (hnd : addrs.Nodup) (ha : a ∈ addrs)
    (h : collectPairsForAddr matrix addrs a = some l) :
    l = pairRow matrix addrs a := by
  unfold collectPairsForAddr at h
  rw [lastIdxOf_eq_indexOf hnd ha, Option.some_bind] at h
  refine optMap_some_ext h ?_
  intro j hj y hy
  have hjlt : j < addrs.length := List.mem_range.mp (List.mem_filter.mp hj).1
  have hget : addrs.get? j = some (addrs.getD j ⟨0, 0, 0, 0⟩) := by
    rw [List.get?_eq_getElem?, List.getElem?_eq_getElem hjlt,
      List.getD_eq_getElem _ _ hjlt]
  rw [hget, Option.some_bind] at hy
  cases hlat : matrix.latency (addrs.indexOf a) j with
  | none => rw [hlat, Option.none_bind] at hy; cases hy
  | some ns =>
    rw [hlat, Option.some_bind] at hy
    split at hy
    · simp only [Option.some_inj] at hy
      simp [pairFor, hlat, ← hy]
    · cases hy

theorem collectPairsForAddr_eq_some {matrix : LatencyMatrix}
    {addrs : List Ipv4Addr} {a : Ipv4Addr}
    (hnd : addrs.Nodup) (ha : a ∈ addrs)
    (hcov : ∀ j, j < addrs.length →
      ∃ ns, matrix.latency (addrs.indexOf a) j = some ns ∧ ns / 1000000 < 2 ^ 32) :
    collectPairsForAddr matrix addrs a = some (pairRow matrix addrs a) := by
  unfold collectPairsForAddr
  rw [lastIdxOf_eq_indexOf hnd ha, Option.some_bind]
  refine optMap_eq_some_of_forall ?_
  intro j hj
  have hjlt : j < addrs.length := List.mem_range.mp (List.mem_filter.mp hj).1
  rcases hcov j hjlt with ⟨ns, hns, hlt⟩
  have hget : addrs.get? j = some (addrs.getD j ⟨0, 0, 0, 0⟩) := by
    rw [List.get?_eq_getElem?, List.getElem?_eq_getElem hjlt,
      List.getD_eq_getElem _ _ hjlt]
  rw [hget, Option.some_bind, hns, Option.some_bind, if_pos hlt]
  simp [pairFor, hns]

theorem collectPairs_some_eq {matrix : LatencyMatrix} {addrs : List Ipv4Addr}
    {maddrs : List Ipv4Addr} {pairs : List PairEntry}
    (hnd : addrs.Nodup) (hsub : ∀ a ∈ maddrs, a ∈ addrs)
    (h : collectPairs matrix addrs maddrs = some pairs) :
    pairs = (maddrs.map (pairRow matrix addrs)).flatten := by
  unfold collectPairs at h
  cases hm : optMap (collectPairsForAddr matrix addrs) maddrs with
  | none => rw [hm] at h; cases h
  | some ls =>
    rw [hm] at h
    have hls : ls = maddrs.map (pairRow matrix addrs) :=
      optMap_some_ext hm
        (fun a haa y hy => collectPairsForAddr_some_eq hnd (hsub a haa) hy)
    simpa [hls] using h.symm

theorem collectPairs_eq_some {matrix : LatencyMatrix} {addrs : List Ipv4Addr}
    {maddrs : List Ipv4Addr}
    (hnd : addrs.Nodup) (hsub : ∀ a ∈ maddrs, a ∈ addrs)
    (hcov : ∀ a ∈ maddrs, ∀ j, j < addrs.length →
      ∃ ns, matrix.latency (addrs.indexOf a) j = some ns ∧ ns / 1000000 < 2 ^ 32) :
    collectPairs matrix addrs maddrs
      = some ((maddrs.map (pairRow matrix addrs)).flatten) := by
  unfold collectPairs
  rw [optMap_eq_some_of_forall (g := pairRow matrix addrs)
    (fun a haa => collectPairsForAddr_eq_some hnd (hsub a haa) (hcov a haa))]
  rfl

theorem countP_key_nodup {l : List Nat} (hnd : l.Nodup) {j0 : Nat}
    (hj : j0 ∈ l) (r : Nat → Bool) :
    l.countP (fun j => decide (j = j0) && r j) = if r j0 then 1 else 0 := by
  induction l with
  | nil => cases hj
  | cons x xs ih =>
    rcases List.mem_cons.mp hj with rfl | hj'
    · have hx : j0 ∉ xs := (List.nodup_cons.mp hnd).1
      have h0 : xs.countP (fun j => decide (j = j0) && r j) = 0 :=
        List.countP_eq_zero.mpr (fun a ha => by
          by_cases hax : a = j0
          · exact absurd (hax ▸ ha) hx
          · simp [hax])
      rw [List.countP_cons, h0]
      by_cases hr : r j0 <;> simp [hr]
    · have hxj : x ≠ j0 := fun h => (List.nodup_cons.mp hnd).1 (h ▸ hj')
      rw [List.countP_cons, ih (List.nodup_cons.mp hnd).2 hj']
      simp [hxj]

theorem sum_map_single {l : List α} (hnd : l.Nodup) {x : α} (hx : x ∈ l)
    (f : α → Nat) (h0 : ∀ y ∈ l, y ≠ x → f y = 0) : (l.map f).sum = f x := by
  induction l with
  | nil => cases hx
  | cons a as ih =>
    rcases List.mem_cons.mp hx with rfl | hx'
    · have h1 : (as.map f).sum = 0 := by
        rw [List.sum_eq_zero_iff]
        intro n hn
        rcases List.mem_map.mp hn with ⟨y, hy, rfl⟩
        exact h0 y (by simp [hy]) (fun h => (List.nodup_cons.mp hnd).1 (h ▸ hy))
      simp [h1]
    · have ha : f a = 0 :=
        h0 a (by simp) (fun h => (List.nodup_cons.mp hnd).1 (h ▸ hx'))
      rw [List.map_cons, List.sum_cons, ha,
        ih (List.nodup_cons.mp hnd).2 hx' (fun y hy => h0 y (by simp [hy])),
        Nat.zero_add]

/-- The structural value of `markPairsOf` when the `assert_ne!` never fires:
per bucket (in first-seen order), the pairs of that latency with mark
`bucket index + 1`. -/
theorem markPairsOf_eq_some {pairs : List PairEntry}
    (h : ∀ p ∈ pairs, p.src ≠ p.dst) :
    markPairsOf pairs = some ((bucketsOf pairs).enum.flatMap (fun il =>
      (pairs.filter (fun p => p.millis == il.2)).map
        (fun p => ⟨p.src, p.dst, il.1 + 1⟩))) := by
  unfold markPairsOf
  have houter : optMap (fun il =>
      optMap (fun p =>
          if p.src = p.dst then none
          else some (⟨p.src, p.dst, il.1 + 1⟩ : MarkPair))
        (pairs.filter (fun p => p.millis == il.2)))
      (bucketsOf pairs).enum
      = some ((bucketsOf pairs).enum.map (fun il =>
          (pairs.filter (fun p => p.millis == il.2)).map
            (fun p => (⟨p.src, p.dst, il.1 + 1⟩ : MarkPair)))) :=
    optMap_eq_some_of_forall (fun il _ =>
      optMap_eq_some_of_forall (fun p hp => by
        rw [if_neg (h p (List.mem_of_mem_filter hp))]))
  rw [houter, List.flatMap_def]
  rfl

theorem pairRow_src {matrix : LatencyMatrix} {addrs : List Ipv4Addr}
    {a : Ipv4Addr} {p : PairEntry} (hp : p ∈ pairRow matrix addrs a) :
    p.src = a := by
  rcases List.mem_map.mp hp with ⟨j, _, rfl⟩
  rfl

theorem pairs_src_ne_dst {matrix : LatencyMatrix} {addrs maddrs : List Ipv4Addr}
    (hndA : addrs.Nodup) (hsub : ∀ a ∈ maddrs, a ∈ addrs) :
    ∀ p ∈ (maddrs.map (pairRow matrix addrs)).flatten, p.src ≠ p.dst := by
  intro p hp
  rcases List.mem_flatten.mp hp with ⟨row, hrow, hprow⟩
  rcases List.mem_map.mp hrow with ⟨a, ha, rfl⟩
  rcases List.mem_map.mp hprow with ⟨j, hj, rfl⟩
  have hjlt : j < addrs.length := List.mem_range.mp (List.mem_filter.mp hj).1
  have hjne : j ≠ addrs.indexOf a := by
    have := (List.mem_filter.mp hj).2
    simpa using this
  have hilt : addrs.indexOf a < addrs.length := List.indexOf_lt_length.mpr (hsub a ha)
  intro hcontra
  have hdst : addrs[j] = a := by
    have h1 : (pairFor matrix addrs a j).dst = addrs.getD j ⟨0, 0, 0, 0⟩ := rfl
    have h2 : (pairFor matrix addrs a j).src = a := rfl
    rw [← List.getD_eq_getElem addrs ⟨0, 0, 0, 0⟩ hjlt, ← h1, ← hcontra, h2]
  have : addrs[j] = addrs[addrs.indexOf a] := by
    rw [hdst, List.getElem_indexOf hilt]
  exact hjne ((hndA.getElem_inj_iff).mp this)

/-- The key counting fact about the collected pairs: among the pairs of one
machine there is exactly one entry for a given `(src, dst)`, and its
latency-bucket key is `matrix[g(src)][g(dst)]` in whole milliseconds; stated
with an arbitrary extra predicate `q` on the entry's millisecond value. -/
theorem pairs_countP {matrix : LatencyMatrix} {addrs maddrs : List Ipv4Addr}
    {src dst : Ipv4Addr} (hndA : addrs.Nodup) (hndM : maddrs.Nodup)
    (hsub : ∀ a ∈ maddrs, a ∈ addrs)
    (hsrc : src ∈ maddrs) (hdst : dst ∈ addrs) (hne : dst ≠ src)
    (q : Nat → Bool) :
    ((maddrs.map (pairRow matrix addrs)).flatten).countP
        (fun p => decide (p.src = src) && decide (p.dst = dst) && q p.millis)
      = if q ((matrix.latency (addrs.indexOf src) (addrs.indexOf dst)).getD 0
          / 1000000) then 1 else 0 := by
  rw [List.countP_flatten, List.map_map]
  have hrow0 : ∀ a ∈ maddrs, a ≠ src →
      (pairRow matrix addrs a).countP
        (fun p => decide (p.src = src) && decide (p.dst = dst) && q p.millis) = 0 := by
    intro a _ hasrc
    refine List.countP_eq_zero.mpr ?_
    intro p hp
    rw [pairRow_src hp]
    simp [hasrc]
  have hgd : addrs.indexOf dst < addrs.length := List.indexOf_lt_length.mpr hdst
  have hgs : addrs.indexOf src < addrs.length :=
    List.indexOf_lt_length.mpr (hsub src hsrc)
  have hgne : addrs.indexOf dst ≠ addrs.indexOf src :=
    fun h => hne ((List.indexOf_inj hdst (hsub src hsrc)).mp h)
  have hrowsrc : (pairRow matrix addrs src).countP
      (fun p => decide (p.src = src) && decide (p.dst = dst) && q p.millis)
      = if q ((matrix.latency (addrs.indexOf src) (addrs.indexOf dst)).getD 0
          / 1000000) then 1 else 0 := by
    unfold pairRow
    rw [List.countP_map]
    have hcong : ∀ j ∈ (List.range addrs.length).filter
        (fun j => j ≠ addrs.indexOf src),
        (((fun p => decide (p.src = src) && decide (p.dst = dst) && q p.millis)
            ∘ pairFor matrix addrs src) j = true)
          ↔ ((fun j => decide (j = addrs.indexOf dst) &&
              q ((matrix.latency (addrs.indexOf src) j).getD 0 / 1000000)) j
            = true) := by
      intro j hj
      have hjlt : j < addrs.length := List.mem_range.mp (List.mem_filter.mp hj).1
      have hiff : (addrs.getD j ⟨0, 0, 0, 0⟩ = dst) ↔ (j = addrs.indexOf dst) := by
        rw [List.getD_eq_getElem addrs _ hjlt]
        constructor
        · intro h
          exact (@List.Nodup.getElem_inj_iff _ _ hndA j hjlt _ hgd).mp
            (by rw [h, List.getElem_indexOf hgd])
        · intro h
          subst h
          exact List.getElem_indexOf hgd
      show ((decide (src = src) && decide (addrs.getD j ⟨0, 0, 0, 0⟩ = dst) &&
          q ((matrix.latency (addrs.indexOf src) j).getD 0 / 1000000)) = true)
        ↔ ((decide (j = addrs.indexOf dst) &&
          q ((matrix.latency (addrs.indexOf src) j).getD 0 / 1000000)) = true)
      simp only [Bool.and_eq_true, decide_eq_true_eq]
      rw [hiff]
      tauto
    rw [List.countP_congr hcong]
    have hmemfil : addrs.indexOf dst ∈ (List.range addrs.length).filter
        (fun j => j ≠ addrs.indexOf src) := by
      refine List.mem_filter.mpr ⟨List.mem_range.mpr hgd, ?_⟩
      simpa using hgne
    exact countP_key_nodup ((List.nodup_range _).filter _) hmemfil _
  calc (maddrs.map (fun a => (pairRow matrix addrs a).countP
        (fun p => decide (p.src = src) && decide (p.dst = dst) && q p.millis))).sum
      = (pairRow matrix addrs src).countP
          (fun p => decide (p.src = src) && decide (p.dst = dst) && q p.millis) :=
        sum_map_single hndM hsrc _ (fun a ha hane => hrow0 a ha hane)
    _ = _ := hrowsrc

/-- Membership of the designated `(src, dst)` entry in the collected pairs. -/
theorem pair_mem_pairs {matrix : LatencyMatrix} {addrs maddrs : List Ipv4Addr}
    {src dst : Ipv4Addr} (hsub : ∀ a ∈ maddrs, a ∈ addrs)
    (hsrc : src ∈ maddrs) (hdst : dst ∈ addrs) (hne : dst ≠ src) :
    pairFor matrix addrs src (addrs.indexOf dst)
      ∈ (maddrs.map (pairRow matrix addrs)).flatten := by
  have hgd : addrs.indexOf dst < addrs.length := List.indexOf_lt_length.mpr hdst
  have hgne : addrs.indexOf dst ≠ addrs.indexOf src :=
    fun h => hne ((List.indexOf_inj hdst (hsub src hsrc)).mp h)
  refine List.mem_flatten.mpr ⟨pairRow matrix addrs src,
    List.mem_map_of_mem _ hsrc, ?_⟩
  refine List.mem_map_of_mem _ ?_
  exact List.mem_filter.mpr ⟨List.mem_range.mpr hgd, by simpa using hgne⟩

/-- Main mark-pair correctness: under the pair-list structure produced by
`collectPairs`, each `(src, dst)` with `src` owned by the machine,
`dst` global and `dst ≠ src` occurs exactly once in the emitted map, and
its mark is the 1-based first-seen bucket position of the pair's
whole-millisecond latency. -/
theorem markPairs_count_and_value {matrix : LatencyMatrix}
    {addrs maddrs : List Ipv4Addr} {pairs : List PairEntry}
    {mps : List MarkPair} {src dst : Ipv4Addr}
    (hndA : addrs.Nodup) (hndM : maddrs.Nodup)
    (hsub : ∀ a ∈ maddrs, a ∈ addrs)
    (hpairs : pairs = (maddrs.map (pairRow matrix addrs)).flatten)
    (hmps : markPairsOf pairs = some mps)
    (hsrc : src ∈ maddrs) (hdst : dst ∈ addrs) (hne : dst ≠ src) :
    (mps.countP (fun e => decide (e.src = src) && decide (e.dst = dst)) = 1)
    ∧ (∀ e ∈ mps, e.src = src → e.dst = dst →
        e.mark = (bucketsOf pairs).indexOf
          ((matrix.latency (addrs.indexOf src) (addrs.indexOf dst)).getD 0
            / 1000000) + 1) := by
  have hsd : ∀ p ∈ pairs, p.src ≠ p.dst := by
    rw [hpairs]; exact pairs_src_ne_dst hndA hsub
  have hstruct := markPairsOf_eq_some hsd
  rw [hmps] at hstruct
  have hmpseq := Option.some_inj.mp hstruct
  set m0 := (matrix.latency (addrs.indexOf src) (addrs.indexOf dst)).getD 0
    / 1000000 with hm0
  have hm0mem : m0 ∈ bucketsOf pairs := by
    have hp0 := @pair_mem_pairs matrix _ _ _ _ hsub hsrc hdst hne
    rw [← hpairs] at hp0
    exact mem_bucketsOf hp0
  have hcount : ∀ q : Nat → Bool,
      pairs.countP (fun p => decide (p.src = src) && decide (p.dst = dst)
        && q p.millis) = if q m0 then 1 else 0 := by
    intro q
    rw [hpairs]
    exact pairs_countP hndA hndM hsub hsrc hdst hne q
  constructor
  · rw [hmpseq, List.flatMap_def, List.countP_flatten, List.map_map]
    have hmap : ((bucketsOf pairs).enum.map
        ((fun l => l.countP (fun e => decide (e.src = src) && decide (e.dst = dst)))
          ∘ (fun il => (pairs.filter (fun p => p.millis == il.2)).map
            (fun p => (⟨p.src, p.dst, il.1 + 1⟩ : MarkPair)))))
        = ((bucketsOf pairs).enum.map
          (fun il => if (il.2 == m0) = true then 1 else 0)) := by
      apply List.map_congr_left
      intro il _
      show ((pairs.filter (fun p => p.millis == il.2)).map
          (fun p => (⟨p.src, p.dst, il.1 + 1⟩ : MarkPair))).countP
          (fun e => decide (e.src = src) && decide (e.dst = dst))
        = if (il.2 == m0) = true then 1 else 0
      rw [List.countP_map, List.countP_filter]
      have hq := hcount (fun v => v == il.2)
      have hpred : List.countP (fun a =>
          ((fun e => decide (e.src = src) && decide (e.dst = dst))
            ∘ (fun p => (⟨p.src, p.dst, il.1 + 1⟩ : MarkPair))) a
          && (a.millis == il.2)) pairs
          = List.countP (fun p => decide (p.src = src) && decide (p.dst = dst)
            && (p.millis == il.2)) pairs := rfl
      rw [hpred, hq]
      by_cases h : m0 = il.2
      · simp [h]
      · have h' : ¬ il.2 = m0 := fun hh => h hh.symm
        simp [h, h']
    rw [hmap]
    have hsnd : ((bucketsOf pairs).enum.map
        (fun il => if (il.2 == m0) = true then 1 else 0))
        = ((bucketsOf pairs).map (fun v => if (v == m0) = true then 1 else 0)) := by
      rw [show ((fun il : Nat × Nat => if (il.2 == m0) = true then 1 else 0))
          = ((fun v => if (v == m0) = true then 1 else 0) ∘ Prod.snd) from rfl,
        ← List.map_map, List.enum_map_snd]
    rw [hsnd]
    have hind : ((bucketsOf pairs).map
        (fun v => if (v == m0) = true then 1 else 0)).sum
        = (bucketsOf pairs).count m0 := by
      have hh := sum_map_indicator m0 (bucketsOf pairs)
      rw [← hh]
      congr 1
      apply List.map_congr_left
      intro v _
      by_cases h : v = m0 <;> simp [h]
    rw [hind]
    exact List.count_eq_one_of_mem (bucketsOf_nodup pairs) hm0mem
  · intro e he hesrc hedst
    rw [hmpseq] at he
    rcases List.mem_flatMap.mp he with ⟨il, hil, hein⟩
    rcases List.mem_map.mp hein with ⟨p, hpfil, rfl⟩
    have hpmem : p ∈ pairs := List.mem_of_mem_filter hpfil
    have hpmil : p.millis = il.2 := by
      have := List.of_mem_filter hpfil
      simpa using this
    have hpm0 : p.millis = m0 := by
      by_contra hcon
      have h0 := hcount (fun v => !(v == m0))
      simp only [beq_self_eq_true, Bool.not_true, if_false] at h0
      have : ¬ (decide (p.src = src) && decide (p.dst = dst)
          && !(p.millis == m0)) = true := by
        intro hmem
        have := List.countP_eq_zero.mp h0 p hpmem
        exact this hmem
      apply this
      have h1 : p.src = src := hesrc
      have h2 : p.dst = dst := hedst
      simp [h1, h2, hcon]
    have hil2 : il.2 = m0 := hpmil ▸ hpm0
    have hgetil := List.mem_enum_iff_getElem?.mp hil
    obtain ⟨hillt, hbuckil⟩ := List.getElem?_eq_some_iff.mp hgetil
    have hbuckm0 : (bucketsOf pairs)[il.1] = m0 := hbuckil.trans hil2
    have hidxlt : (bucketsOf pairs).indexOf m0 < (bucketsOf pairs).length :=
      List.indexOf_lt_length.mpr hm0mem
    have hgeteq : (bucketsOf pairs)[il.1]
        = (bucketsOf pairs)[(bucketsOf pairs).indexOf m0] := by
      rw [hbuckm0, List.getElem_indexOf hidxlt]
    have hileq : il.1 = (bucketsOf pairs).indexOf m0 :=
      (@List.Nodup.getElem_inj_iff _ _ (bucketsOf_nodup pairs) il.1 hillt _
        hidxlt).mp hgeteq
    show il.1 + 1 = (bucketsOf pairs).indexOf m0 + 1
    rw [hileq]

/-- Every emitted mark is between 1 and the number of buckets. -/
theorem markPairsOf_mark_bounds {pairs : List PairEntry} {mps : List MarkPair}
    (hsd : ∀ p ∈ pairs, p.src ≠ p.dst) (hmps : markPairsOf pairs = some mps) :
    ∀ e ∈ mps, 1 ≤ e.mark ∧ e.mark ≤ (bucketsOf pairs).length := by
  have hstruct := markPairsOf_eq_some hsd
  rw [hmps] at hstruct
  have hmpseq := Option.some_inj.mp hstruct
  intro e he
  rw [hmpseq] at he
  rcases List.mem_flatMap.mp he with ⟨il, hil, hein⟩
  rcases List.mem_map.mp hein with ⟨p, _, rfl⟩
  obtain ⟨hlt, _⟩ := List.getElem?_eq_some_iff.mp (List.mem_enum_iff_getElem?.mp hil)
  exact ⟨Nat.le_add_left 1 il.1, Nat.succ_le_of_lt hlt⟩

/-- Every bucket index is realised by at least one emitted mark. -/
theorem markPairsOf_mark_exists {pairs : List PairEntry} {mps : List MarkPair}
    (hsd : ∀ p ∈ pairs, p.src ≠ p.dst) (hmps : markPairsOf pairs = some mps)
    {i : Nat} (hi : i < (bucketsOf pairs).length) :
    ∃ e ∈ mps, e.mark = i + 1 := by
  have hstruct := markPairsOf_eq_some hsd
  rw [hmps] at hstruct
  have hmpseq := Option.some_inj.mp hstruct
  have hbmem : (bucketsOf pairs)[i] ∈ bucketsOf pairs := List.getElem_mem hi
  have hvmem : (bucketsOf pairs)[i] ∈ pairs.map PairEntry.millis := by
    have hsubm : ∀ v ∈ bucketsOf pairs, v ∈ pairs.map PairEntry.millis := by
      intro v hv
      rw [bucketsOf_eq_firstSeen] at hv
      exact firstSeen_subset _ hv
    exact hsubm _ hbmem
  rcases List.mem_map.mp hvmem with ⟨p, hp, hpm⟩
  refine ⟨⟨p.src, p.dst, i + 1⟩, ?_, rfl⟩
  rw [hmpseq]
  refine List.mem_flatMap.mpr ⟨(i, (bucketsOf pairs)[i]), ?_, ?_⟩
  · exact List.mem_enum_iff_getElem?.mpr (by
      simp [List.getElem?_eq_getElem hi])
  · exact List.mem_map_of_mem _ (List.mem_filter.mpr ⟨hp, by simp [hpm]⟩)

/-- Inversion of `machine_generate_config`: a successful per-machine
configuration decomposes into its interface, addresses, collected pairs and
mark pairs, with tc and ip programs determined by them. -/
theorem machine_generate_config_some {matrix : LatencyMatrix}
    {addrs : List Ipv4Addr} {n : Nat} {m : Machine} {cfg : MachineConfig}
    (h : machine_generate_config matrix addrs n m = some cfg) :
    ∃ iface maddrs pairs mps,
      m.interface = some iface ∧
      machineAddressList n m = some maddrs ∧
      collectPairs matrix addrs maddrs = some pairs ∧
      markPairsOf pairs = some mps ∧
      cfg = { machine := m, addresses := maddrs, mark_pairs := mps,
              tc_commands := tcCommands iface (bucketsOf pairs),
              ip_commands := ("route add 10.0.0.0/8 dev " ++ iface) ::
                maddrs.map (fun a =>
                  "addr add " ++ a.render ++ "/32 dev " ++ iface) } := by
  unfold machine_generate_config at h
  cases hif : m.interface with
  | none => rw [hif, Option.none_bind] at h; cases h
  | some iface =>
    rw [hif, Option.some_bind] at h
    cases hml : machineAddressList n m with
    | none => rw [hml, Option.none_bind] at h; cases h
    | some maddrs =>
      rw [hml, Option.some_bind] at h
      cases hcp : collectPairs matrix addrs maddrs with
      | none => rw [hcp, Option.none_bind] at h; cases h
      | some pairs =>
        rw [hcp, Option.some_bind] at h
        cases hmp : markPairsOf pairs with
        | none => rw [hmp, Option.none_bind] at h; cases h
        | some mps =>
          rw [hmp, Option.some_bind] at h
          exact ⟨iface, maddrs, pairs, mps, rfl, rfl, hcp, hmp,
            (Option.some_inj.mp h).symm⟩

/-- Inversion of `machine_generate_configs`: each produced configuration
comes from one of the machines, applied to the gathered address list. -/
theorem machine_generate_configs_some_mem {matrix : LatencyMatrix}
    {machines : List Machine} {n : Nat} {cfgs : List MachineConfig}
    (h : machine_generate_configs matrix machines n = some cfgs) :
    ∃ addrs, gatherAddresses machines n = some addrs ∧
      ∀ cfg ∈ cfgs, ∃ m ∈ machines,
        machine_generate_config matrix addrs n m = some cfg := by
  unfold machine_generate_configs at h
  cases hg : gatherAddresses machines n with
  | none => rw [hg, Option.none_bind] at h; cases h
  | some addrs =>
    rw [hg, Option.some_bind] at h
    exact ⟨addrs, rfl, fun cfg hcfg => optMap_some_mem h cfg hcfg⟩

theorem countP_enumFrom_key (p : TcCmd → Bool) (f : Nat → Nat → List TcCmd)
    (k : Nat) (hp : ∀ idx lat, (f idx lat).countP p = if idx + 1 = k then 1 else 0) :
    ∀ (buckets : List Nat) (s : Nat),
      ((List.enumFrom s buckets).flatMap (fun il => f il.1 il.2)).countP p
        = if s + 1 ≤ k ∧ k ≤ s + buckets.length then 1 else 0
  | [], s => by
    simp only [List.enumFrom_nil, List.flatMap_nil, List.countP_nil,
      List.length_nil]
    have : ¬ (s + 1 ≤ k ∧ k ≤ s + 0) := by omega
    rw [if_neg this]
  | b :: bs, s => by
    rw [List.enumFrom_cons, List.flatMap_cons, List.countP_append, hp s b,
      countP_enumFrom_key p f k hp bs (s + 1)]
    have hlen : (b :: bs).length = bs.length + 1 := rfl
    rw [hlen]
    split_ifs <;> omega

theorem countP_enumFrom_zero (p : TcCmd → Bool) (f : Nat → Nat → List TcCmd)
    (hp : ∀ idx lat, (f idx lat).countP p = 0) :
    ∀ (buckets : List Nat) (s : Nat),
      ((List.enumFrom s buckets).flatMap (fun il => f il.1 il.2)).countP p = 0
  | [], _ => rfl
  | b :: bs, s => by
    rw [List.enumFrom_cons, List.flatMap_cons, List.countP_append, hp s b,
      countP_enumFrom_zero p f hp bs (s + 1)]

theorem tcCommandsFor_dev {i : String} {buckets : List Nat} :
    ∀ c ∈ tcCommandsFor i buckets, c.dev = i := by
  intro c hc
  unfold tcCommandsFor at hc
  rcases List.mem_append.mp hc with hc | hc
  · rcases List.mem_cons.mp hc with rfl | hc
    · rfl
    · rcases List.mem_cons.mp hc with rfl | hc
      · rfl
      · cases hc
  · rcases List.mem_flatMap.mp hc with ⟨il, _, hcin⟩
    rcases List.mem_cons.mp hcin with rfl | hcin
    · rfl
    · rcases List.mem_cons.mp hcin with rfl | hcin
      · rfl
      · rcases List.mem_cons.mp hcin with rfl | hcin
        · rfl
        · cases hcin

theorem countP_tcCommandsFor_other_dev {p : TcCmd → Bool} {i i' : String}
    (hpi : ∀ c, p c = true → c.dev = i) (hne : i ≠ i') {buckets : List Nat} :
    (tcCommandsFor i' buckets).countP p = 0 :=
  List.countP_eq_zero.mpr (fun c hc hpc =>
    hne ((hpi c hpc) ▸ tcCommandsFor_dev c hc))

theorem count_tcCommandsFor_class {i : String} {k : Nat} (hk : k ≠ 9999)
    (buckets : List Nat) :
    (tcCommandsFor i buckets).countP (fun c => decide (c = .classHtb i k))
      = if 1 ≤ k ∧ k ≤ buckets.length then 1 else 0 := by
  unfold tcCommandsFor
  rw [List.countP_append]
  have hpre : ([TcCmd.qdiscRootHtb i, TcCmd.classHtb i 9999]).countP
      (fun c => decide (c = .classHtb i k)) = 0 := by
    simp [List.countP_cons, Ne.symm hk]
  rw [hpre, Nat.zero_add]
  have henum : buckets.enum = List.enumFrom 0 buckets := rfl
  rw [henum, countP_enumFrom_key _ (fun idx lat => [TcCmd.classHtb i (idx + 1),
      TcCmd.qdiscNetem i (idx + 1) (idx + 2) lat,
      TcCmd.filterFw i (idx + 1) (idx + 1)]) k (fun idx lat => by
    by_cases h : idx + 1 = k <;> simp [List.countP_cons, h]) buckets 0]
  simp

theorem count_tcCommandsFor_class9999 {i : String} (buckets : List Nat)
    (hlen : 9999 ≤ buckets.length) :
    (tcCommandsFor i buckets).countP
      (fun c => decide (c = .classHtb i 9999)) = 2 := by
  unfold tcCommandsFor
  rw [List.countP_append]
  have hpre : ([TcCmd.qdiscRootHtb i, TcCmd.classHtb i 9999]).countP
      (fun c => decide (c = .classHtb i 9999)) = 1 := by
    simp [List.countP_cons]
  have henum : buckets.enum = List.enumFrom 0 buckets := rfl
  rw [hpre, henum, countP_enumFrom_key _ (fun idx lat => [TcCmd.classHtb i (idx + 1),
      TcCmd.qdiscNetem i (idx + 1) (idx + 2) lat,
      TcCmd.filterFw i (idx + 1) (idx + 1)]) 9999 (fun idx lat => by
    by_cases h : idx + 1 = 9999 <;> simp [List.countP_cons, h]) buckets 0]
  rw [if_pos (by omega)]

theorem count_tcCommandsFor_netem {i : String} {k : Nat} (buckets : List Nat) :
    (tcCommandsFor i buckets).countP (isNetemParent i k)
      = if 1 ≤ k ∧ k ≤ buckets.length then 1 else 0 := by
  unfold tcCommandsFor
  rw [List.countP_append]
  have hpre : ([TcCmd.qdiscRootHtb i, TcCmd.classHtb i 9999]).countP
      (isNetemParent i k) = 0 := by
    simp [List.countP_cons, isNetemParent]
  have henum : buckets.enum = List.enumFrom 0 buckets := rfl
  rw [hpre, Nat.zero_add, henum, countP_enumFrom_key _ (fun idx lat => [TcCmd.classHtb i (idx + 1),
      TcCmd.qdiscNetem i (idx + 1) (idx + 2) lat,
      TcCmd.filterFw i (idx + 1) (idx + 1)]) k (fun idx lat => by
    by_cases h : idx + 1 = k <;> simp [List.countP_cons, isNetemParent, h]) buckets 0]
  simp

theorem count_tcCommandsFor_filter {i : String} {k : Nat} (buckets : List Nat) :
    (tcCommandsFor i buckets).countP (fun c => decide (c = .filterFw i k k))
      = if 1 ≤ k ∧ k ≤ buckets.length then 1 else 0 := by
  unfold tcCommandsFor
  rw [List.countP_append]
  have hpre : ([TcCmd.qdiscRootHtb i, TcCmd.classHtb i 9999]).countP
      (fun c => decide (c = .filterFw i k k)) = 0 := by
    simp [List.countP_cons]
  have henum : buckets.enum = List.enumFrom 0 buckets := rfl
  rw [hpre, Nat.zero_add, henum, countP_enumFrom_key _ (fun idx lat => [TcCmd.classHtb i (idx + 1),
      TcCmd.qdiscNetem i (idx + 1) (idx + 2) lat,
      TcCmd.filterFw i (idx + 1) (idx + 1)]) k (fun idx lat => by
    by_cases h : idx + 1 = k <;> simp [List.countP_cons, h]) buckets 0]
  simp

theorem count_tcCommandsFor_root {i : String} (buckets : List Nat) :
    (tcCommandsFor i buckets).countP
      (fun c => decide (c = .qdiscRootHtb i)) = 1 := by
  unfold tcCommandsFor
  rw [List.countP_append]
  have hpre : ([TcCmd.qdiscRootHtb i, TcCmd.classHtb i 9999]).countP
      (fun c => decide (c = .qdiscRootHtb i)) = 1 := by
    simp [List.countP_cons]
  have henum : buckets.enum = List.enumFrom 0 buckets := rfl
  rw [hpre, henum, countP_enumFrom_zero _ (fun idx lat => [TcCmd.classHtb i (idx + 1),
      TcCmd.qdiscNetem i (idx + 1) (idx + 2) lat,
      TcCmd.filterFw i (idx + 1) (idx + 1)]) (fun idx lat => by
    simp [List.countP_cons]) buckets 0]

theorem netem_shape {i i' : String} {k : Nat} {buckets : List Nat}
    {c : TcCmd} (hc : c ∈ tcCommandsFor i' buckets)
    (hp : isNetemParent i k c = true) :
    c = .qdiscNetem i k (k + 1) (buckets.getD (k - 1) 0) := by
  unfold tcCommandsFor at hc
  rcases List.mem_append.mp hc with hc | hc
  · rcases List.mem_cons.mp hc with rfl | hc
    · cases hp
    · rcases List.mem_cons.mp hc with rfl | hc
      · cases hp
      · cases hc
  · rcases List.mem_flatMap.mp hc with ⟨il, hil, hcin⟩
    rcases List.mem_cons.mp hcin with rfl | hcin
    · cases hp
    · rcases List.mem_cons.mp hcin with rfl | hcin
      · obtain ⟨hi', hk⟩ := by
          have := hp
          simp only [isNetemParent, Bool.and_eq_true, decide_eq_true_eq] at this
          exact this
        obtain ⟨hillt, hbuckil⟩ :=
          List.getElem?_eq_some_iff.mp (List.mem_enum_iff_getElem?.mp hil)
        subst hi'
        have hidx : il.1 = k - 1 := by omega
        have hlat : il.2 = buckets.getD (k - 1) 0 := by
          rw [← hidx, List.getD_eq_getElem _ _ (hidx ▸ hillt)]
          exact hbuckil.symm
        rw [hk, hlat, show il.1 + 2 = k + 1 by omega]
      · rcases List.mem_cons.mp hcin with rfl | hcin
        · cases hp
        · cases hcin

theorem tcCommands_eq_append (i : String) (buckets : List Nat) :
    tcCommands i buckets
      = tcCommandsFor "lo" buckets ++ tcCommandsFor i buckets := by
  unfold tcCommands
  rw [List.flatMap_cons, List.flatMap_cons, List.flatMap_nil, List.append_nil]

theorem collectPairs_forAddr_some {matrix : LatencyMatrix}
    {addrs maddrs : List Ipv4Addr} {pairs : List PairEntry}
    (h : collectPairs matrix addrs maddrs = some pairs) :
    ∀ a ∈ maddrs, ∃ l, collectPairsForAddr matrix addrs a = some l := by
  unfold collectPairs at h
  cases hm : optMap (collectPairsForAddr matrix addrs) maddrs with
  | none => rw [hm] at h; cases h
  | some ls => exact fun a ha => optMap_some_elem hm a ha

theorem collectPairsForAddr_latency_some {matrix : LatencyMatrix}
    {addrs : List Ipv4Addr} {a : Ipv4Addr} {l : List PairEntry}
    (hnd : addrs.Nodup) (ha : a ∈ addrs)
    (h : collectPairsForAddr matrix addrs a = some l) {j : Nat}
    (hj : j < addrs.length) (hjne : j ≠ addrs.indexOf a) :
    ∃ ns, matrix.latency (addrs.indexOf a) j = some ns
      ∧ ns / 1000000 < 2 ^ 32 := by
  unfold collectPairsForAddr at h
  rw [lastIdxOf_eq_indexOf hnd ha, Option.some_bind] at h
  have hjmem : j ∈ (List.range addrs.length).filter
      (fun j => j ≠ addrs.indexOf a) :=
    List.mem_filter.mpr ⟨List.mem_range.mpr hj, by simpa using hjne⟩
  rcases optMap_some_elem h j hjmem with ⟨y, hy⟩
  have hget : addrs.get? j = some (addrs.getD j ⟨0, 0, 0, 0⟩) := by
    rw [List.get?_eq_getElem?, List.getElem?_eq_getElem hj,
      List.getD_eq_getElem _ _ hj]
  rw [hget, Option.some_bind] at hy
  cases hlat : matrix.latency (addrs.indexOf a) j with
  | none => rw [hlat, Option.none_bind] at hy; cases hy
  | some ns =>
    rw [hlat, Option.some_bind] at hy
    by_cases hlt : ns / 1000000 < 2 ^ 32
    · exact ⟨ns, rfl, hlt⟩
    · rw [if_neg hlt] at hy; cases hy

/-- C1.  For every machine in the list given to `machine_generate_configs`,
every ordered pair `(src, dst)` with `src` among the machine's addresses,
`dst` among the global addresses and `dst ≠ src` appears exactly once in the
emitted `mark_pairs` map, with mark the 1-based position of the pair's
whole-millisecond latency in the machine's first-seen bucket order. -/
theorem claim_C1 (matrix : LatencyMatrix) (machines : List Machine) (n : Nat)
    (addrs : List Ipv4Addr) (cfgs : List MachineConfig) (cfg : MachineConfig)
    (src dst : Ipv4Addr)
    (hnd : machines.Nodup)
    (hgather : gatherAddresses machines n = some addrs)
    (hcfgs : machine_generate_configs matrix machines n = some cfgs)
    (hcfg : cfg ∈ cfgs)
    (hsrc : src ∈ cfg.addresses) (hdst : dst ∈ addrs) (hne : dst ≠ src) :
    ∃ pairs ns, collectPairs matrix addrs cfg.addresses = some pairs ∧
      matrix.latency (addrs.indexOf src) (addrs.indexOf dst) = some ns ∧
      bucketsOf pairs = firstSeen (pairs.map PairEntry.millis) ∧
      (cfg.mark_pairs.countP
        (fun e => decide (e.src = src) && decide (e.dst = dst)) = 1) ∧
      (∀ e ∈ cfg.mark_pairs, e.src = src → e.dst = dst →
        e.mark = (bucketsOf pairs).indexOf (ns / 1000000) + 1) := by
  obtain ⟨addrs', hg', hmem⟩ := machine_generate_configs_some_mem hcfgs
  rw [hgather] at hg'
  obtain rfl : addrs = addrs' := Option.some_inj.mp hg'
  obtain ⟨m, hm, hgen⟩ := hmem cfg hcfg
  obtain ⟨iface, maddrs, pairs, mps, hif, hml, hcp, hmp, hcfgeq⟩ :=
    machine_generate_config_some hgen
  subst hcfgeq
  have hndA : addrs.Nodup := gatherAddresses_some_nodup hnd hgather
  have hndM : maddrs.Nodup := machineAddressList_some_nodup hml
  have hsub : ∀ a ∈ maddrs, a ∈ addrs := mem_gatherAddresses hgather hm hml
  have hsrc' : src ∈ maddrs := hsrc
  have hpairs : pairs = (maddrs.map (pairRow matrix addrs)).flatten :=
    collectPairs_some_eq hndA hsub hcp
  have hcount := markPairs_count_and_value hndA hndM hsub hpairs hmp
    hsrc' hdst hne
  have hlat : ∃ ns, matrix.latency (addrs.indexOf src) (addrs.indexOf dst)
      = some ns ∧ ns / 1000000 < 2 ^ 32 := by
    rcases collectPairs_forAddr_some hcp src hsrc' with ⟨l, hl⟩
    have hgd : addrs.indexOf dst < addrs.length := List.indexOf_lt_length.mpr hdst
    have hgne : addrs.indexOf dst ≠ addrs.indexOf src :=
      fun h => hne ((List.indexOf_inj hdst (hsub src hsrc')).mp h)
    exact collectPairsForAddr_latency_some hndA (hsub src hsrc') hl hgd hgne
  rcases hlat with ⟨ns, hns, _⟩
  refine ⟨pairs, ns, hcp, hns, bucketsOf_eq_firstSeen pairs, hcount.1, ?_⟩
  intro e he hes hed
  have := hcount.2 e he hes hed
  rw [hns] at this
  simpa using this

/-- Every interface actually present in the registry is `"bond0"`. -/
theorem machine_interface_eq_bond0 :
    ∀ m : Machine, ∀ i, m.interface = some i → i = "bond0" := by
  have h : ∀ m : Machine, m.interface = none ∨ m.interface = some "bond0" := by
    decide
  intro m i hi
  rcases h m with h' | h' <;> rw [h'] at hi
  · cases hi
  · exact (Option.some_inj.mp hi).symm

end OarP2p

namespace OarP2p

/-- Witness for C1 at the concrete `Oddish1` input: hypotheses hold and the
instantiated conclusion follows by applying `claim_C1`. -/
theorem claim_C1_witness :
    ([Machine.Oddish1].Nodup
      ∧ gatherAddresses [Machine.Oddish1] 1 = some addrsW1
      ∧ machine_generate_configs mW1 [Machine.Oddish1] 1
          = some ((machine_generate_configs mW1 [Machine.Oddish1] 1).getD [])
      ∧ cfgW1 ∈ (machine_generate_configs mW1 [Machine.Oddish1] 1).getD []
      ∧ (⟨10, 45, 0, 1⟩ : Ipv4Addr) ∈ cfgW1.addresses
      ∧ (⟨10, 45, 0, 2⟩ : Ipv4Addr) ∈ addrsW1
      ∧ (⟨10, 45, 0, 2⟩ : Ipv4Addr) ≠ ⟨10, 45, 0, 1⟩)
    ∧ (∃ pairs ns,
        collectPairs mW1 addrsW1 cfgW1.addresses = some pairs ∧
        mW1.latency (addrsW1.indexOf ⟨10, 45, 0, 1⟩)
          (addrsW1.indexOf ⟨10, 45, 0, 2⟩) = some ns ∧
        bucketsOf pairs = firstSeen (pairs.map PairEntry.millis) ∧
        (cfgW1.mark_pairs.countP
          (fun e => decide (e.src = (⟨10, 45, 0, 1⟩ : Ipv4Addr))
            && decide (e.dst = (⟨10, 45, 0, 2⟩ : Ipv4Addr))) = 1) ∧
        (∀ e ∈ cfgW1.mark_pairs,
          e.src = ⟨10, 45, 0, 1⟩ → e.dst = ⟨10, 45, 0, 2⟩ →
          e.mark = (bucketsOf pairs).indexOf (ns / 1000000) + 1)) :=
  ⟨⟨by decide, by decide, by decide, by decide, by decide, by decide, by decide⟩,
    claim_C1 mW1 [Machine.Oddish1] 1 addrsW1
      ((machine_generate_configs mW1 [Machine.Oddish1] 1).getD []) cfgW1
      ⟨10, 45, 0, 1⟩ ⟨10, 45, 0, 2⟩
      (by decide) (by decide) (by decide) (by decide) (by decide) (by decide)
      (by decide)⟩

end OarP2p

namespace OarP2p

theorem indexOf_getElem_of_nodup {l : List Ipv4Addr} (hnd : l.Nodup) {j : Nat}
    (hj : j < l.length) : l.indexOf l[j] = j := by
  have hmem : l[j] ∈ l := List.getElem_mem hj
  have hlt : l.indexOf l[j] < l.length := List.indexOf_lt_length.mpr hmem
  exact (@List.Nodup.getElem_inj_iff _ _ hnd _ hlt _ hj).mp
    (List.getElem_indexOf hlt)

/-- C3.  Under the per-cpu policy each machine contributes `n·cpus(m)`
addresses, the i-th being `10.index.(i/254).((i mod 254)+1)` (so the 254-th
is `10.index.1.1`); all generated addresses are distinct, and the global
index of an address (the `address_to_index` map) is its position in the
machine-major enumeration. -/
theorem claim_C3 (machines : List Machine) (n : Nat)
    (hnd : machines.Nodup)
    (hb : ∀ m ∈ machines, addrCount n m ≤ 65024)
    (hw : ∀ m ∈ machines, n * m.cpus < 2 ^ 32) :
    ∃ addrs, gatherAddresses machines n = some addrs ∧
      addrs.Nodup ∧
      addrs.length = (machines.map (fun m => n * m.cpus)).sum ∧
      (∀ m ∈ machines, ∃ l, machineAddressList n m = some l ∧
        l.length = n * m.cpus ∧
        (∀ i, (hi : i < l.length) →
          l.get ⟨i, hi⟩ = ⟨10, m.index, i / 254, i % 254 + 1⟩) ∧
        (∀ hi : 254 < l.length, l.get ⟨254, hi⟩ = ⟨10, m.index, 1, 1⟩)) ∧
      (∀ j, (hj : j < addrs.length) →
        lastIdxOf addrs (addrs.get ⟨j, hj⟩) = some j ∧
        addrs.indexOf (addrs.get ⟨j, hj⟩) = j) := by
  have hcount : ∀ m ∈ machines, addrCount n m = n * m.cpus := by
    intro m hm
    exact Nat.mod_eq_of_lt (hw m hm)
  have hg := gatherAddresses_eq_some hb
  have hnda := gatherAddresses_some_nodup hnd hg
  refine ⟨_, hg, hnda, ?_, ?_, ?_⟩
  · rw [gatherAddresses_some_length hg]
    exact congrArg List.sum (List.map_congr_left hcount)
  · intro m hm
    refine ⟨_, machineAddressList_eq_some (hb m hm), ?_, ?_, ?_⟩
    · rw [List.length_map, List.length_range, hcount m hm]
    · intro i hi
      rw [List.get_eq_getElem, List.getElem_map, List.getElem_range]
      rfl
    · intro hi
      rw [List.get_eq_getElem, List.getElem_map, List.getElem_range]
      show addrFormula m 254 = _
      unfold addrFormula
      norm_num
  · intro j hj
    have hjj : ((machines.map
        (fun m => (List.range (addrCount n m)).map (addrFormula m))).flatten).get
          ⟨j, hj⟩
        = ((machines.map
          (fun m => (List.range (addrCount n m)).map (addrFormula m))).flatten)[j] :=
      List.get_eq_getElem _ _
    have hmem := List.getElem_mem hj
    rw [hjj]
    refine ⟨?_, indexOf_getElem_of_nodup hnda hj⟩
    rw [lastIdxOf_eq_indexOf hnda hmem, indexOf_getElem_of_nodup hnda hj]

end OarP2p

namespace OarP2p

/-- Witness for C3 with two Gengar machines and one address per cpu. -/
theorem claim_C3_witness :
    ([Machine.Gengar1, Machine.Gengar2].Nodup
      ∧ (∀ m ∈ [Machine.Gengar1, Machine.Gengar2], addrCount 1 m ≤ 65024)
      ∧ (∀ m ∈ [Machine.Gengar1, Machine.Gengar2], 1 * m.cpus < 2 ^ 32))
    ∧ (∃ addrs, gatherAddresses [Machine.Gengar1, Machine.Gengar2] 1 = some addrs ∧
        addrs.Nodup ∧
        addrs.length = ([Machine.Gengar1, Machine.Gengar2].map
          (fun m => 1 * m.cpus)).sum ∧
        (∀ m ∈ [Machine.Gengar1, Machine.Gengar2], ∃ l,
          machineAddressList 1 m = some l ∧
          l.length = 1 * m.cpus ∧
          (∀ i, (hi : i < l.length) →
            l.get ⟨i, hi⟩ = ⟨10, m.index, i / 254, i % 254 + 1⟩) ∧
          (∀ hi : 254 < l.length, l.get ⟨254, hi⟩ = ⟨10, m.index, 1, 1⟩)) ∧
        (∀ j, (hj : j < addrs.length) →
          lastIdxOf addrs (addrs.get ⟨j, hj⟩) = some j ∧
          addrs.indexOf (addrs.get ⟨j, hj⟩) = j)) :=
  ⟨⟨by decide, by decide, by decide⟩,
    claim_C3 [Machine.Gengar1, Machine.Gengar2] 1 (by decide) (by decide)
      (by decide)⟩

end OarP2p

namespace OarP2p

/-- C4 (code bug evidence).  With one `Oddish1` machine and one address per
cpu there are 4 overlay addresses, yet `cmd_net_up` performs no dimension
check: generating configurations against a 2×2 matrix panics (out-of-bounds
latency lookup, modelled as `none`) instead of failing with a Planning
error. -/
theorem claim_C4 :
    (∃ addrs, gatherAddresses [Machine.Oddish1] 1 = some addrs
      ∧ addrs.length = 4)
    ∧ (LatencyMatrix.mk 2 [0, 0, 0, 0]).dimension = 2
    ∧ machine_generate_configs ⟨2, [0, 0, 0, 0]⟩ [Machine.Oddish1] 1 = none :=
  ⟨⟨addrsW1, by decide, by decide⟩, rfl, by decide⟩

/-- C6 (code bug evidence).  `Alakazam01` with 1009 addresses per cpu gets
`Nm = 64576 > 254·254 = 64516` addresses, yet address-plan construction
reports no error: the whole plan is produced. -/
theorem claim_C6 :
    64516 < addrCount 1009 Machine.Alakazam01
    ∧ ∃ addrs, gatherAddresses [Machine.Alakazam01] 1009 = some addrs
        ∧ addrs.length = 64576 := by
  refine ⟨by decide, ?_⟩
  have hb : ∀ m ∈ [Machine.Alakazam01], addrCount 1009 m ≤ 65024 := by decide
  have hg := gatherAddresses_eq_some hb
  refine ⟨_, hg, ?_⟩
  rw [gatherAddresses_some_length hg]
  decide

end OarP2p

namespace OarP2p

theorem dev_of_classHtb {i : String} {k : Nat} :
    ∀ c : TcCmd, decide (c = TcCmd.classHtb i k) = true → c.dev = i := by
  intro c hc
  rw [decide_eq_true_eq] at hc
  subst hc
  rfl

theorem dev_of_filterFw {i : String} {k f : Nat} :
    ∀ c : TcCmd, decide (c = TcCmd.filterFw i k f) = true → c.dev = i := by
  intro c hc
  rw [decide_eq_true_eq] at hc
  subst hc
  rfl

theorem dev_of_root {i : String} :
    ∀ c : TcCmd, decide (c = TcCmd.qdiscRootHtb i) = true → c.dev = i := by
  intro c hc
  rw [decide_eq_true_eq] at hc
  subst hc
  rfl

theorem dev_of_netemParent {i : String} {k : Nat} :
    ∀ c : TcCmd, isNetemParent i k c = true → c.dev = i := by
  intro c hc
  cases c with
  | qdiscNetem i' p h d =>
    simp only [isNetemParent, Bool.and_eq_true, decide_eq_true_eq] at hc
    exact hc.1
  | qdiscRootHtb i' => cases hc
  | classHtb i' k' => cases hc
  | filterFw i' m' f' => cases hc

/-- C2 (amended).  For every mark `1 ≤ k ≤ #buckets` with `k ≠ 9999`, the tc
program of a generated configuration has, on each of `lo` and the machine's
interface, exactly one class `1:k`, exactly one netem qdisc under parent
`1:k` — whose handle is `(k+1):` and whose delay is that bucket's
whole-millisecond latency — and exactly one fw filter `handle k flowid 1:k`;
and each interface carries exactly one root htb qdisc (default 9999).  The
`k ≠ 9999` proviso is forced: the bucket class of id 9999 coincides with the
always-present default class. -/
theorem claim_C2 (matrix : LatencyMatrix) (machines : List Machine) (n : Nat)
    (addrs : List Ipv4Addr) (cfgs : List MachineConfig) (cfg : MachineConfig)
    (_hnd : machines.Nodup)
    (hgather : gatherAddresses machines n = some addrs)
    (hcfgs : machine_generate_configs matrix machines n = some cfgs)
    (hcfg : cfg ∈ cfgs) :
    ∃ iface pairs, cfg.machine.interface = some iface ∧ iface ≠ "lo" ∧
      collectPairs matrix addrs cfg.addresses = some pairs ∧
      (∀ i ∈ ["lo", iface],
        cfg.tc_commands.countP (fun c => decide (c = TcCmd.qdiscRootHtb i)) = 1) ∧
      (∀ k, 1 ≤ k → k ≤ (bucketsOf pairs).length → k ≠ 9999 →
        ∀ i ∈ ["lo", iface],
          cfg.tc_commands.countP (fun c => decide (c = TcCmd.classHtb i k)) = 1 ∧
          cfg.tc_commands.countP (isNetemParent i k) = 1 ∧
          (∀ c ∈ cfg.tc_commands, isNetemParent i k c = true →
            c = TcCmd.qdiscNetem i k (k + 1) ((bucketsOf pairs).getD (k - 1) 0)) ∧
          cfg.tc_commands.countP (fun c => decide (c = TcCmd.filterFw i k k)) = 1) := by
  obtain ⟨addrs', hg', hmem⟩ := machine_generate_configs_some_mem hcfgs
  rw [hgather] at hg'
  obtain rfl : addrs = addrs' := Option.some_inj.mp hg'
  obtain ⟨m, hm, hgen⟩ := hmem cfg hcfg
  obtain ⟨iface, maddrs, pairs, mps, hif, hml, hcp, hmp, hcfgeq⟩ :=
    machine_generate_config_some hgen
  subst hcfgeq
  have hbond : iface = "bond0" := machine_interface_eq_bond0 m iface hif
  have hlo : iface ≠ "lo" := by rw [hbond]; decide
  refine ⟨iface, pairs, hif, hlo, hcp, ?_, ?_⟩
  · intro i hi
    show (tcCommands iface (bucketsOf pairs)).countP _ = 1
    rw [tcCommands_eq_append, List.countP_append]
    rcases List.mem_cons.mp hi with rfl | hi'
    · rw [count_tcCommandsFor_root,
        countP_tcCommandsFor_other_dev dev_of_root hlo.symm]
    · have : i = iface := by simpa using hi'
      subst this
      rw [count_tcCommandsFor_root,
        countP_tcCommandsFor_other_dev dev_of_root hlo]
  · intro k hk1 hk2 hk9999 i hi
    have hkif : 1 ≤ k ∧ k ≤ (bucketsOf pairs).length := ⟨hk1, hk2⟩
    have hshape : ∀ c ∈ tcCommands iface (bucketsOf pairs),
        isNetemParent i k c = true →
        c = TcCmd.qdiscNetem i k (k + 1) ((bucketsOf pairs).getD (k - 1) 0) := by
      intro c hc hpc
      rw [tcCommands_eq_append] at hc
      rcases List.mem_append.mp hc with hc | hc
      · exact netem_shape hc hpc
      · exact netem_shape hc hpc
    rcases List.mem_cons.mp hi with rfl | hi'
    · refine ⟨?_, ?_, hshape, ?_⟩
      · rw [show MachineConfig.tc_commands _ = tcCommands iface (bucketsOf pairs)
          from rfl, tcCommands_eq_append, List.countP_append,
          count_tcCommandsFor_class hk9999, if_pos hkif,
          countP_tcCommandsFor_other_dev dev_of_classHtb hlo.symm]
      · rw [show MachineConfig.tc_commands _ = tcCommands iface (bucketsOf pairs)
          from rfl, tcCommands_eq_append, List.countP_append,
          count_tcCommandsFor_netem, if_pos hkif,
          countP_tcCommandsFor_other_dev dev_of_netemParent hlo.symm]
      · rw [show MachineConfig.tc_commands _ = tcCommands iface (bucketsOf pairs)
          from rfl, tcCommands_eq_append, List.countP_append,
          count_tcCommandsFor_filter, if_pos hkif,
          countP_tcCommandsFor_other_dev dev_of_filterFw hlo.symm]
    · have hieq : i = iface := by simpa using hi'
      subst hieq
      refine ⟨?_, ?_, hshape, ?_⟩
      · rw [show MachineConfig.tc_commands _ = tcCommands i (bucketsOf pairs)
          from rfl, tcCommands_eq_append, List.countP_append,
          count_tcCommandsFor_class hk9999, if_pos hkif,
          countP_tcCommandsFor_other_dev dev_of_classHtb hlo]
      · rw [show MachineConfig.tc_commands _ = tcCommands i (bucketsOf pairs)
          from rfl, tcCommands_eq_append, List.countP_append,
          count_tcCommandsFor_netem, if_pos hkif,
          countP_tcCommandsFor_other_dev dev_of_netemParent hlo]
      · rw [show MachineConfig.tc_commands _ = tcCommands i (bucketsOf pairs)
          from rfl, tcCommands_eq_append, List.countP_append,
          count_tcCommandsFor_filter, if_pos hkif,
          countP_tcCommandsFor_other_dev dev_of_filterFw hlo]

end OarP2p

namespace OarP2p

/-- Witness for (amended) C2 at the concrete `Oddish1` input. -/
theorem claim_C2_witness :
    ([Machine.Oddish1].Nodup
      ∧ gatherAddresses [Machine.Oddish1] 1 = some addrsW1
      ∧ machine_generate_configs mW1 [Machine.Oddish1] 1
          = some ((machine_generate_configs mW1 [Machine.Oddish1] 1).getD [])
      ∧ cfgW1 ∈ (machine_generate_configs mW1 [Machine.Oddish1] 1).getD [])
    ∧ (∃ iface pairs, cfgW1.machine.interface = some iface ∧ iface ≠ "lo" ∧
        collectPairs mW1 addrsW1 cfgW1.addresses = some pairs ∧
        (∀ i ∈ ["lo", iface],
          cfgW1.tc_commands.countP
            (fun c => decide (c = TcCmd.qdiscRootHtb i)) = 1) ∧
        (∀ k, 1 ≤ k → k ≤ (bucketsOf pairs).length → k ≠ 9999 →
          ∀ i ∈ ["lo", iface],
            cfgW1.tc_commands.countP
              (fun c => decide (c = TcCmd.classHtb i k)) = 1 ∧
            cfgW1.tc_commands.countP (isNetemParent i k) = 1 ∧
            (∀ c ∈ cfgW1.tc_commands, isNetemParent i k c = true →
              c = TcCmd.qdiscNetem i k (k + 1)
                ((bucketsOf pairs).getD (k - 1) 0)) ∧
            cfgW1.tc_commands.countP
              (fun c => decide (c = TcCmd.filterFw i k k)) = 1)) :=
  ⟨⟨by decide, by decide, by decide, by decide⟩,
    claim_C2 mW1 [Machine.Oddish1] 1 addrsW1
      ((machine_generate_configs mW1 [Machine.Oddish1] 1).getD []) cfgW1
      (by decide) (by decide) (by decide) (by decide)⟩

end OarP2p

namespace OarP2p

theorem firstSeen_eq_self_of_nodup : ∀ l : List Nat, l.Nodup → firstSeen l = l := by
  intro l
  induction l using firstSeen.induct with
  | case1 => intro _; rw [firstSeen_nil]
  | case2 x xs ih =>
    intro hnd
    rw [firstSeen_cons]
    have hx : x ∉ xs := (List.nodup_cons.mp hnd).1
    have hfil : xs.filter (fun y => y ≠ x) = xs := by
      rw [List.filter_eq_self]
      intro a ha
      have hax : a ≠ x := fun h => hx (h ▸ ha)
      simpa using hax
    rw [hfil] at ih ⊢
    rw [ih (List.nodup_cons.mp hnd).2]

theorem filter_ne_length_of_nodup {i : Nat} :
    ∀ l : List Nat, l.Nodup → i ∈ l →
      (l.filter (fun j => j ≠ i)).length = l.length - 1
  | [], _, hmem => absurd hmem (by simp)
  | x :: xs, hnd, hmem => by
    by_cases hx : x = i
    · subst hx
      have hnx : x ∉ xs := (List.nodup_cons.mp hnd).1
      have hfil : xs.filter (fun j => j ≠ x) = xs := by
        rw [List.filter_eq_self]
        intro a ha
        have hax : a ≠ x := fun h => hnx (h ▸ ha)
        simpa using hax
      simp only [List.filter_cons]
      rw [if_neg (by simp)]
      rw [hfil]
      simp
    · have hmem' : i ∈ xs := by
        rcases List.mem_cons.mp hmem with h | h
        · exact absurd h.symm hx
        · exact h
      have hpos : 0 < xs.length := List.length_pos.mpr
        (fun h => by rw [h] at hmem'; cases hmem')
      have ih := filter_ne_length_of_nodup xs (List.nodup_cons.mp hnd).2 hmem'
      rw [List.filter_cons, if_pos (by simpa using hx)]
      rw [List.length_cons, ih, List.length_cons]
      omega

theorem filter_range_ne_length {N i : Nat} (hi : i < N) :
    ((List.range N).filter (fun j => j ≠ i)).length = N - 1 := by
  rw [filter_ne_length_of_nodup (List.range N) (List.nodup_range N)
    (List.mem_range.mpr hi), List.length_range]

theorem rangeMatrix_latency (N : Nat) {r j : Nat} (hr : r < N) (hj : j < N) :
    (rangeMatrix N).latency r j = some ((N * r + j) * 1000000) := by
  have hidx : N * r + j < N * N := by
    calc N * r + j < N * r + N := by omega
    _ = N * (r + 1) := by ring
    _ ≤ N * N := Nat.mul_le_mul_left N (by omega)
  unfold rangeMatrix LatencyMatrix.latency
  rw [List.get?_eq_getElem?, List.getElem?_map, List.getElem?_range hidx]
  rfl

theorem rangeMatrix_millis {N r j : Nat} (hr : r < N) (hj : j < N) :
    ((rangeMatrix N).latency r j).getD 0 / 1000000 = N * r + j := by
  rw [rangeMatrix_latency N hr hj, Option.getD_some,
    Nat.mul_div_cancel _ (by omega)]

end OarP2p

namespace OarP2p

theorem optMap_singleton {f : α → Option β} {x : α} {y : β}
    (h : f x = some y) : optMap f [x] = some [y] := by
  simp [optMap, h]

set_option maxRecDepth 40000 in
/-- The 112-address, 12432-bucket configuration of `Bulbasaur1` with 7
addresses per cpu and the all-distinct `rangeMatrix 112`: the bucket count
exceeds the reserved class id 9999. -/
theorem bulbasaur_overflow_case :
    ∃ addrs pairs mps cfgs cfg,
      gatherAddresses [Machine.Bulbasaur1] 7 = some addrs ∧
      machine_generate_configs (rangeMatrix 112) [Machine.Bulbasaur1] 7
        = some cfgs ∧
      cfg ∈ cfgs ∧
      collectPairs (rangeMatrix 112) addrs addrs = some pairs ∧
      markPairsOf pairs = some mps ∧
      cfg.mark_pairs = mps ∧
      cfg.tc_commands = tcCommands "bond0" (bucketsOf pairs) ∧
      (∀ p ∈ pairs, p.src ≠ p.dst) ∧
      9999 ≤ (bucketsOf pairs).length := by
  have hc : addrCount 7 Machine.Bulbasaur1 = 112 := by decide
  have hb : ∀ m ∈ [Machine.Bulbasaur1], addrCount 7 m ≤ 65024 := by decide
  set L := (List.range (addrCount 7 Machine.Bulbasaur1)).map
    (addrFormula Machine.Bulbasaur1) with hL
  have hml : machineAddressList 7 Machine.Bulbasaur1 = some L :=
    machineAddressList_eq_some (by decide)
  have hgA : gatherAddresses [Machine.Bulbasaur1] 7 = some L := by
    rw [gatherAddresses_eq_some hb, List.map_cons, List.map_nil,
      List.flatten_cons, List.flatten_nil, List.append_nil]
  clear_value L
  have hndA : L.Nodup := machineAddressList_some_nodup hml
  have hsub : ∀ a ∈ L, a ∈ L := fun a ha => ha
  have hLlen : L.length = 112 := by
    rw [hL, List.length_map, List.length_range, hc]
  have hidxlt : ∀ a ∈ L, L.indexOf a < 112 := fun a ha =>
    hLlen ▸ List.indexOf_lt_length.mpr ha
  have hcov : ∀ a ∈ L, ∀ j, j < L.length →
      ∃ ns, (rangeMatrix 112).latency (L.indexOf a) j = some ns
        ∧ ns / 1000000 < 2 ^ 32 := by
    intro a ha j hj
    rw [hLlen] at hj
    refine ⟨(112 * L.indexOf a + j) * 1000000,
      rangeMatrix_latency 112 (hidxlt a ha) hj, ?_⟩
    rw [Nat.mul_div_cancel _ (by omega)]
    have h2 : 112 * L.indexOf a ≤ 112 * 111 :=
      Nat.mul_le_mul_left 112 (by have := hidxlt a ha; omega)
    omega
  have hcp : collectPairs (rangeMatrix 112) L L
      = some ((L.map (pairRow (rangeMatrix 112) L)).flatten) :=
    collectPairs_eq_some hndA hsub hcov
  set pairs := (L.map (pairRow (rangeMatrix 112) L)).flatten with hpairs
  clear_value pairs
  have hsd : ∀ p ∈ pairs, p.src ≠ p.dst := by
    rw [hpairs]
    exact pairs_src_ne_dst hndA hsub
  have hmp := markPairsOf_eq_some hsd
  have hgen1 : machine_generate_config (rangeMatrix 112) L 7 Machine.Bulbasaur1
      = some
        { machine := Machine.Bulbasaur1, addresses := L
          mark_pairs := (bucketsOf pairs).enum.flatMap (fun il =>
            (pairs.filter (fun p => p.millis == il.2)).map
              (fun p => ⟨p.src, p.dst, il.1 + 1⟩))
          tc_commands := tcCommands "bond0" (bucketsOf pairs)
          ip_commands := ("route add 10.0.0.0/8 dev " ++ "bond0") ::
            L.map (fun a => "addr add " ++ a.render ++ "/32 dev " ++ "bond0") } := by
    unfold machine_generate_config
    have hifr : Machine.Bulbasaur1.interface = some "bond0" := rfl
    rw [hifr, Option.some_bind, hml, Option.some_bind, hcp, Option.some_bind,
      hmp, Option.some_bind]
  have hgenS : machine_generate_configs (rangeMatrix 112) [Machine.Bulbasaur1] 7
      = some
        [{ machine := Machine.Bulbasaur1, addresses := L
           mark_pairs := (bucketsOf pairs).enum.flatMap (fun il =>
             (pairs.filter (fun p => p.millis == il.2)).map
               (fun p => ⟨p.src, p.dst, il.1 + 1⟩))
           tc_commands := tcCommands "bond0" (bucketsOf pairs)
           ip_commands := ("route add 10.0.0.0/8 dev " ++ "bond0") ::
             L.map (fun a => "addr add " ++ a.render ++ "/32 dev " ++ "bond0") }] := by
    unfold machine_generate_configs
    rw [hgA, Option.some_bind]
    exact optMap_singleton hgen1
  have hmillis : pairs.map PairEntry.millis
      = (L.map (fun a => ((List.range L.length).filter
          (fun j => j ≠ L.indexOf a)).map
            (fun j => 112 * L.indexOf a + j))).flatten := by
    rw [hpairs, List.map_flatten, List.map_map]
    refine congrArg List.flatten (List.map_congr_left ?_)
    intro a ha
    show (pairRow (rangeMatrix 112) L a).map PairEntry.millis = _
    unfold pairRow
    rw [List.map_map]
    apply List.map_congr_left
    intro j hj
    have hjlt : j < 112 := by
      have := List.mem_range.mp (List.mem_filter.mp hj).1
      omega
    show (pairFor (rangeMatrix 112) L a j).millis = 112 * L.indexOf a + j
    exact rangeMatrix_millis (hidxlt a ha) hjlt
  have hnodupM : (pairs.map PairEntry.millis).Nodup := by
    rw [hmillis, List.nodup_flatten]
    constructor
    · intro l hl
      rcases List.mem_map.mp hl with ⟨a, _, rfl⟩
      exact ((List.nodup_range _).filter _).map_on
        (fun i _ i' _ h => by omega)
    · rw [List.pairwise_map]
      refine hndA.imp_of_mem ?_
      intro a a' ha ha' hne v hv hv'
      rcases List.mem_map.mp hv with ⟨j, hj, rfl⟩
      rcases List.mem_map.mp hv' with ⟨j', hj', heq⟩
      have hjlt : j < 112 := by
        have := List.mem_range.mp (List.mem_filter.mp hj).1
        omega
      have hjlt' : j' < 112 := by
        have := List.mem_range.mp (List.mem_filter.mp hj').1
        omega
      have hieq : L.indexOf a = L.indexOf a' := by omega
      exact hne ((List.indexOf_inj ha ha').mp hieq)
  have hbuck : bucketsOf pairs = pairs.map PairEntry.millis := by
    rw [bucketsOf_eq_firstSeen, firstSeen_eq_self_of_nodup _ hnodupM]
  have hplen : pairs.length = 12432 := by
    rw [hpairs, List.length_flatten, List.map_map]
    have hrow : ∀ a ∈ L, (List.length ∘ pairRow (rangeMatrix 112) L) a = 111 := by
      intro a ha
      show (pairRow (rangeMatrix 112) L a).length = 111
      unfold pairRow
      rw [List.length_map, hLlen, filter_range_ne_length (hidxlt a ha)]
    rw [List.map_congr_left hrow]
    have : L.map (fun _ => 111) = List.replicate L.length 111 :=
      List.map_const L 111
    rw [this, List.sum_replicate, hLlen, smul_eq_mul]
  have hblen : (bucketsOf pairs).length = 12432 := by
    rw [hbuck, List.length_map, hplen]
  refine ⟨L, pairs, _, _, _, hgA, hgenS, List.mem_singleton_self _, hcp, hmp,
    rfl, rfl, hsd, ?_⟩
  rw [hblen]
  omega

end OarP2p

namespace OarP2p

/-- C2 counterexample: in the `Bulbasaur1` configuration with 12432 latency
buckets, mark 9999 is in use (9999 ≤ #buckets), yet the tc program for `lo`
contains the class line `classid 1:9999 htb rate 10gbit` twice — the bucket
class collides with the default class, refuting "exactly one class with
classid 1:k" for the used mark k = 9999. -/
theorem claim_C2_counterexample :
    ∃ addrs pairs cfgs cfg,
      gatherAddresses [Machine.Bulbasaur1] 7 = some addrs ∧
      machine_generate_configs (rangeMatrix 112) [Machine.Bulbasaur1] 7
        = some cfgs ∧
      cfg ∈ cfgs ∧
      collectPairs (rangeMatrix 112) addrs addrs = some pairs ∧
      9999 ≤ (bucketsOf pairs).length ∧
      cfg.tc_commands.countP
        (fun c => decide (c = TcCmd.classHtb "lo" 9999)) = 2 := by
  obtain ⟨addrs, pairs, mps, cfgs, cfg, hg, hcfgs, hmem, hcp, hmp, hmarks,
    htc, hsd, hlen⟩ := bulbasaur_overflow_case
  refine ⟨addrs, pairs, cfgs, cfg, hg, hcfgs, hmem, hcp, hlen, ?_⟩
  rw [htc, tcCommands_eq_append, List.countP_append,
    count_tcCommandsFor_class9999 _ hlen,
    countP_tcCommandsFor_other_dev dev_of_classHtb (by decide)]

/-- C7 (amended).  The default class `1:9999` is present on both interfaces,
and every mark in `mark_pairs` lies between 1 and the number of buckets; in
particular no mark equals 9999 **provided** the machine has fewer than 9999
buckets.  (The proviso is forced: with ≥ 9999 buckets mark 9999 is used.) -/
theorem claim_C7 (matrix : LatencyMatrix) (machines : List Machine) (n : Nat)
    (addrs : List Ipv4Addr) (cfgs : List MachineConfig) (cfg : MachineConfig)
    (hnd : machines.Nodup)
    (hgather : gatherAddresses machines n = some addrs)
    (hcfgs : machine_generate_configs matrix machines n = some cfgs)
    (hcfg : cfg ∈ cfgs) :
    ∃ iface pairs, cfg.machine.interface = some iface ∧
      collectPairs matrix addrs cfg.addresses = some pairs ∧
      (∀ i ∈ ["lo", iface], TcCmd.classHtb i 9999 ∈ cfg.tc_commands) ∧
      (∀ e ∈ cfg.mark_pairs, 1 ≤ e.mark ∧ e.mark ≤ (bucketsOf pairs).length) ∧
      ((bucketsOf pairs).length < 9999 →
        ∀ e ∈ cfg.mark_pairs, e.mark ≠ 9999) := by
  obtain ⟨addrs', hg', hmem⟩ := machine_generate_configs_some_mem hcfgs
  rw [hgather] at hg'
  obtain rfl : addrs = addrs' := Option.some_inj.mp hg'
  obtain ⟨m, hm, hgen⟩ := hmem cfg hcfg
  obtain ⟨iface, maddrs, pairs, mps, hif, hml, hcp, hmp, hcfgeq⟩ :=
    machine_generate_config_some hgen
  subst hcfgeq
  have hndA : addrs.Nodup := gatherAddresses_some_nodup hnd hgather
  have hsub : ∀ a ∈ maddrs, a ∈ addrs := mem_gatherAddresses hgather hm hml
  have hsd : ∀ p ∈ pairs, p.src ≠ p.dst := by
    rw [collectPairs_some_eq hndA hsub hcp]
    exact pairs_src_ne_dst hndA hsub
  have hbounds := markPairsOf_mark_bounds hsd hmp
  refine ⟨iface, pairs, hif, hcp, ?_, hbounds, ?_⟩
  · intro i hi
    show TcCmd.classHtb i 9999 ∈ tcCommands iface (bucketsOf pairs)
    rw [tcCommands_eq_append]
    rcases List.mem_cons.mp hi with rfl | hi'
    · refine List.mem_append_left _ ?_
      unfold tcCommandsFor
      exact List.mem_append_left _ (by simp)
    · have : i = iface := by simpa using hi'
      subst this
      refine List.mem_append_right _ ?_
      unfold tcCommandsFor
      exact List.mem_append_left _ (by simp)
  · intro hlt e he
    have := hbounds e he
    omega

/-- C7 counterexample: the `Bulbasaur1` configuration with 12432 buckets
emits a `mark_pairs` entry whose mark is exactly 9999, refuting "no firewall
mark equals 9999" as a universal claim. -/
theorem claim_C7_counterexample :
    ∃ addrs cfgs cfg,
      gatherAddresses [Machine.Bulbasaur1] 7 = some addrs ∧
      machine_generate_configs (rangeMatrix 112) [Machine.Bulbasaur1] 7
        = some cfgs ∧
      cfg ∈ cfgs ∧ ∃ e ∈ cfg.mark_pairs, e.mark = 9999 := by
  obtain ⟨addrs, pairs, mps, cfgs, cfg, hg, hcfgs, hmem, hcp, hmp, hmarks,
    htc, hsd, hlen⟩ := bulbasaur_overflow_case
  refine ⟨addrs, cfgs, cfg, hg, hcfgs, hmem, ?_⟩
  rw [hmarks]
  have h9998 : 9998 < (bucketsOf pairs).length := by omega
  obtain ⟨e, he, hm⟩ := markPairsOf_mark_exists hsd hmp h9998
  exact ⟨e, he, hm⟩

/-- Witness for (amended) C7 at the concrete `Oddish1` input. -/
theorem claim_C7_witness :
    ([Machine.Oddish1].Nodup
      ∧ gatherAddresses [Machine.Oddish1] 1 = some addrsW1
      ∧ machine_generate_configs mW1 [Machine.Oddish1] 1
          = some ((machine_generate_configs mW1 [Machine.Oddish1] 1).getD [])
      ∧ cfgW1 ∈ (machine_generate_configs mW1 [Machine.Oddish1] 1).getD [])
    ∧ (∃ iface pairs, cfgW1.machine.interface = some iface ∧
        collectPairs mW1 addrsW1 cfgW1.addresses = some pairs ∧
        (∀ i ∈ ["lo", iface], TcCmd.classHtb i 9999 ∈ cfgW1.tc_commands) ∧
        (∀ e ∈ cfgW1.mark_pairs,
          1 ≤ e.mark ∧ e.mark ≤ (bucketsOf pairs).length) ∧
        ((bucketsOf pairs).length < 9999 →
          ∀ e ∈ cfgW1.mark_pairs, e.mark ≠ 9999)) :=
  ⟨⟨by decide, by decide, by decide, by decide⟩,
    claim_C7 mW1 [Machine.Oddish1] 1 addrsW1
      ((machine_generate_configs mW1 [Machine.Oddish1] 1).getD []) cfgW1
      (by decide) (by decide) (by decide) (by decide)⟩

end OarP2p

namespace OarP2p

end OarP2p

namespace OarP2p

/-- C5 (code bug evidence).  The dimension check reports line, found and
expected widths, and an unparsable token is a recoverable error — but a
token that parses as a **negative** float slips past `parse::<f64>()` and
panics inside `Duration::from_secs_f64` (modelled as `none`) instead of
returning an `InvalidLatencyMatrix` error. -/
theorem claim_C5 :
    LatencyMatrix.parse "1 2\n3" TimeUnit.Milliseconds
      = some (.error (.InvalidLineDimension 1 1 2))
    ∧ LatencyMatrix.parse "abc" TimeUnit.Milliseconds
      = some (.error (.InvalidLatencyValue "abc" "invalid float literal"))
    ∧ LatencyMatrix.parse "-5" TimeUnit.Milliseconds = none :=
  ⟨by decide, by decide, by decide⟩

/-- C10 counterexample: `parse` does **not** return normally on every input;
on the non-square input `"1 2"` the `assert_eq!` in `LatencyMatrix::new`
fails (a panic, modelled as `none`). -/
theorem claim_C10_counterexample :
    LatencyMatrix.parse "1 2" TimeUnit.Milliseconds = none := by decide

theorem parseLines_ok {unit : TimeUnit} :
    ∀ (ls : List (Nat × List Char)) (dim : Option Nat) (lats : List Nat)
      (M : LatencyMatrix),
      parseLines unit ls dim lats = some (.ok M) →
      M.dimension * M.dimension = M.latencies.length
  | [], dim, lats, M, h => by
    unfold parseLines at h
    unfold LatencyMatrix.new at h
    split at h
    case isTrue hsq =>
      rw [Option.map_some'] at h
      obtain rfl := Except.ok.inj (Option.some.inj h)
      exact hsq
    case isFalse =>
      rw [Option.map_none'] at h
      cases h
  | (idx, line) :: rest, dim, lats, M, h => by
    unfold parseLines at h
    split at h
    case h_1 d =>
      simp only [] at h
      split at h
      · exact parseLines_ok rest _ lats M h
      · split at h
        · cases h
        · simp at h
        · split at h
          · simp at h
          · exact parseLines_ok rest _ _ M h
    case h_2 =>
      simp only [] at h
      split at h
      · exact parseLines_ok rest _ lats M h
      · split at h
        · cases h
        · simp at h
        · exact parseLines_ok rest _ _ M h

theorem latency_isSome_of_sq {M : LatencyMatrix}
    (hsq : M.dimension * M.dimension = M.latencies.length) {r c : Nat}
    (hr : r < M.dimension) (hc : c < M.dimension) :
    (M.latency r c).isSome := by
  unfold LatencyMatrix.latency
  rw [List.get?_eq_getElem?]
  have hlt : M.dimension * r + c < M.latencies.length := by
    rw [← hsq]
    calc M.dimension * r + c < M.dimension * r + M.dimension := by omega
    _ = M.dimension * (r + 1) := by ring
    _ ≤ M.dimension * M.dimension := Nat.mul_le_mul_left _ (by omega)
  simp [List.getElem?_eq_getElem hlt]

/-- C10 (amended).  Every matrix `parse` actually returns is square in the
stored sense — `dimension² = #latencies` (enforced by the `assert_eq!` in
`new`) — so `latency(row, col)` is in bounds for all `row, col < dimension`.
The original no-abort claim fails: `parse` panics on non-square inputs and
on negative or non-finite tokens. -/
theorem claim_C10 (content : String) (unit : TimeUnit) (M : LatencyMatrix)
    (h : LatencyMatrix.parse content unit = some (.ok M)) :
    M.dimension * M.dimension = M.latencies.length ∧
    ∀ r c, r < M.dimension → c < M.dimension → (M.latency r c).isSome := by
  have hsq := @parseLines_ok unit (linesOf content.data).enum none [] M h
  exact ⟨hsq, fun r c hr hc => latency_isSome_of_sq hsq hr hc⟩

/-- Witness for (amended) C10 on the 1×1 input `"0"`. -/
theorem claim_C10_witness :
    LatencyMatrix.parse "0" TimeUnit.Milliseconds
      = some (.ok (⟨1, [0]⟩ : LatencyMatrix))
    ∧ ((⟨1, [0]⟩ : LatencyMatrix).dimension
          * (⟨1, [0]⟩ : LatencyMatrix).dimension
        = (⟨1, [0]⟩ : LatencyMatrix).latencies.length ∧
      ∀ r c, r < (⟨1, [0]⟩ : LatencyMatrix).dimension →
        c < (⟨1, [0]⟩ : LatencyMatrix).dimension →
        ((⟨1, [0]⟩ : LatencyMatrix).latency r c).isSome) :=
  ⟨by decide, claim_C10 "0" TimeUnit.Milliseconds ⟨1, [0]⟩ (by decide)⟩

/-- C8.  If every completed task succeeded, all results are collected (in
completion order, paired with their machines); if some task failed, the
collector returns the first failure's error, annotated with the failing
machine's hostname (the returned message literally contains that
hostname), and every other result is discarded. -/
theorem claim_C8 {σ : Type} (pre post : List (Machine × Except String σ))
    (m : Machine) (e : String)
    (hpre : ∀ p ∈ pre, ∃ v, p.2 = Except.ok v) :
    (for_each_collect (pre ++ (m, Except.error e) :: post)
        = Except.error ("running task on machine " ++ m.hostname ++ ": " ++ e)
      ∧ ∃ s t, ("running task on machine " ++ m.hostname ++ ": " ++ e)
          = s ++ m.hostname ++ t)
    ∧ ∀ evts : List (Machine × Except String σ),
        (∀ p ∈ evts, ∃ v, p.2 = Except.ok v) →
        ∃ l, for_each_collect evts = Except.ok l
          ∧ evts = l.map (fun q => (q.1, Except.ok q.2)) := by
  constructor
  · constructor
    · induction pre with
      | nil => rfl
      | cons p rest ih =>
        obtain ⟨v, hv⟩ := hpre p (List.mem_cons_self p rest)
        obtain ⟨pm, pr⟩ := p
        cases hv
        rw [List.cons_append]
        show (for_each_collect (rest ++ (m, Except.error e) :: post)).map _
            = _
        rw [ih (fun q hq => hpre q (List.mem_cons_of_mem _ hq))]
        rfl
    · exact ⟨"running task on machine ", ": " ++ e, by
        simp [String.append_assoc]⟩
  · intro evts
    induction evts with
    | nil => exact fun _ => ⟨[], rfl, rfl⟩
    | cons p rest ih =>
      intro hok
      obtain ⟨v, hv⟩ := hok p (List.mem_cons_self p rest)
      obtain ⟨pm, pr⟩ := p
      cases hv
      obtain ⟨l, hl, hmap⟩ := ih (fun q hq => hok q (List.mem_cons_of_mem _ hq))
      refine ⟨(pm, v) :: l, ?_, ?_⟩
      · show (for_each_collect rest).map _ = _
        rw [hl]
        rfl
      · rw [List.map_cons, ← hmap]

/-- Witness for C8: a two-event run where the second task fails, and a
one-event all-success run. -/
theorem claim_C8_witness :
    for_each_collect [(Machine.Gengar1, (Except.ok 7 : Except String Nat)),
        (Machine.Gengar2, Except.error "boom")]
      = Except.error "running task on machine gengar-2: boom"
    ∧ ∃ l, for_each_collect [(Machine.Gengar1,
          (Except.ok 7 : Except String Nat))] = Except.ok l
        ∧ [(Machine.Gengar1, (Except.ok 7 : Except String Nat))]
          = l.map (fun q => (q.1, Except.ok q.2)) := by
  have hpre : ∀ p ∈ [(Machine.Gengar1, (Except.ok 7 : Except String Nat))],
      ∃ v, p.2 = Except.ok v := by
    intro p hp
    rw [List.mem_singleton] at hp
    exact ⟨7, by rw [hp]⟩
  have h := claim_C8 [(Machine.Gengar1, (Except.ok 7 : Except String Nat))]
    [] Machine.Gengar2 "boom" hpre
  exact ⟨h.1.1, h.2 _ hpre⟩

/-- C9 counterexample: when both the hostname file and the `HOSTNAME`
variable are absent, detection does **not** fall back to an empty name —
it fails with the `HOSTNAME` read error. -/
theorem claim_C9_counterexample :
    get_execution_node none none = Except.error "reading HOSTNAME env var" :=
  rfl

/-- C9 (amended).  The hostname file wins; otherwise the `HOSTNAME`
variable is used; if **both** are absent detection fails with an error
(rather than proceeding with an empty name).  The obtained name maps to
`Frontend` exactly when it is the literal `"frontend"`, to `Machine m`
exactly when the registry resolves it to `m`, and to `Unknown` otherwise. -/
theorem claim_C9 (file env : Option String) :
    (∀ h, file = some h →
        get_execution_node file env = Except.ok (nodeOfHostname h))
    ∧ (∀ h, file = none → env = some h →
        get_execution_node file env = Except.ok (nodeOfHostname h))
    ∧ (file = none → env = none →
        get_execution_node file env = Except.error "reading HOSTNAME env var")
    ∧ ∀ h,
        (nodeOfHostname h = ExecutionNode.Frontend ↔ h = "frontend")
        ∧ (∀ m, nodeOfHostname h = ExecutionNode.Machine m ↔
            Machine.from_hostname h = some m)
        ∧ (nodeOfHostname h = ExecutionNode.Unknown ↔
            h ≠ "frontend" ∧ Machine.from_hostname h = none) := by
  refine ⟨?_, ?_, ?_, ?_⟩
  · intro h hf
    rw [hf]
    rfl
  · intro h hf he
    rw [hf, he]
    rfl
  · intro hf he
    rw [hf, he]
    rfl
  · intro h
    have hfr : Machine.from_hostname "frontend" = none := rfl
    refine ⟨?_, ?_, ?_⟩
    · unfold nodeOfHostname
      split
      case isTrue hfe => simp [hfe]
      case isFalse hfe =>
        constructor
        · intro hc
          split at hc <;> cases hc
        · intro hc
          exact absurd hc hfe
    · intro m
      unfold nodeOfHostname
      split
      case isTrue hfe =>
        subst hfe
        rw [hfr]
        constructor
        · intro hc
          cases hc
        · intro hc
          cases hc
      case isFalse hfe =>
        constructor
        · intro hc
          split at hc
          · cases hc
            assumption
          · cases hc
        · intro hc
          rw [hc]
    · unfold nodeOfHostname
      split
      case isTrue hfe =>
        constructor
        · intro hc
          cases hc
        · intro hc
          exact absurd hfe hc.1
      case isFalse hfe =>
        constructor
        · intro hc
          refine ⟨hfe, ?_⟩
          split at hc
          · cases hc
          · assumption
        · intro hc
          rw [hc.2]

/-- Witness for (amended) C9: the file content `"gengar-1"` resolves to the
registry machine, and the file being present short-circuits the variable. -/
theorem claim_C9_witness :
    get_execution_node (some "gengar-1") (some "frontend")
      = Except.ok (nodeOfHostname "gengar-1")
    ∧ nodeOfHostname "gengar-1" = ExecutionNode.Machine Machine.Gengar1 :=
  ⟨(claim_C9 (some "gengar-1") (some "frontend")).1 "gengar-1" rfl, by decide⟩

end OarP2p
